import Mathlib

/-!
# Verification of the ueberzug line codec (`ueberzug/parser.py`)

This file is a shallow embedding of the parser module of ueberzug:
the three line codecs (`JsonParser`, `SimpleParser`, `BashParser`), the
`shlex`-style micro lexer and the table-driven escape engine used by the
bash codec, and the codec registry (`ParserOption`).

Python strings are modelled as `List Char` (named `Str`).  One modelling
boundary is documented where it occurs: Python's `chr` accepts lone
surrogate code points, which `Char` cannot represent, so the conversion
used by the ANSI-C escape replacements fails on surrogates in this model.
All functions are executable; unbounded recursions carry explicit fuel so
that concrete runs reduce inside the kernel.
-/

deriving instance DecidableEq for Except

/-- Python strings are modelled as lists of characters. -/
abbrev Str := List Char

/-- A record/mapping, in insertion order, as a Python `dict` of strings. -/
abbrev Dict := List (Str × Str)

/-- `shlex` whitespace characters (`shlex.whitespace = ' \t\r\n'`). -/
def isWs (c : Char) : Bool :=
  c = ' ' || c = '\t' || c = '\r' || c = '\n'

/-- `shlex` word characters in non-POSIX mode: ASCII letters, digits and
underscore (`shlex.wordchars`). -/
def isWordCh (c : Char) : Bool :=
  (97 ≤ c.toNat && c.toNat ≤ 122) || (65 ≤ c.toNat && c.toNat ≤ 90) ||
    (48 ≤ c.toNat && c.toNat ≤ 57) || c = '_'

/-- `shlex` quote characters (`shlex.quotes = '\x27"'`). -/
def isQuoteCh (c : Char) : Bool :=
  c = '\'' || c = '"'

/-- Decimal digit, as tested by the pattern `[0-9]`. -/
def isDigitCh (c : Char) : Bool :=
  48 ≤ c.toNat && c.toNat ≤ 57

/-- Hexadecimal digit, as tested by the pattern `[0-9A-Fa-f]`. -/
def isHexCh (c : Char) : Bool :=
  isDigitCh c || (65 ≤ c.toNat && c.toNat ≤ 70) || (97 ≤ c.toNat && c.toNat ≤ 102)

/-- Octal digit (`int(_, base=8)` accepts exactly these). -/
def isOctCh (c : Char) : Bool :=
  48 ≤ c.toNat && c.toNat ≤ 55

/-- Value of a decimal/octal digit character. -/
def digVal (c : Char) : Nat := c.toNat - 48

/-- Value of a hexadecimal digit character (defined on hex digits). -/
def hexVal (c : Char) : Nat :=
  if c.toNat ≤ 57 then c.toNat - 48
  else if c.toNat ≤ 70 then c.toNat - 55
  else c.toNat - 87

/-- `int(s, base=8)`: fails (Python `ValueError`) when a digit is 8 or 9. -/
def pyIntBase8 (s : Str) : Except Unit Nat :=
  if s.all isOctCh then .ok (s.foldl (fun a c => 8 * a + digVal c) 0)
  else .error ()

/-- `int(s, base=16)` on a string of hex digits. -/
def pyIntBase16 (s : Str) : Nat :=
  s.foldl (fun a c => 16 * a + hexVal c) 0

/-- `chr(n)`.  Python fails for `n > 0x10FFFF`; it does accept lone
surrogates (`0xD800..0xDFFF`), which `Char` cannot represent, so this
model also fails there (no claim depends on surrogate code points). -/
def pyChr (n : Nat) : Except Unit Char :=
  if n < 0xD800 ∨ (0xE000 ≤ n ∧ n < 0x110000) then .ok (Char.ofNat n)
  else .error ()

/-- Python `str.upper()` restricted to the ASCII arguments it receives
from the `\cX` escape (`x` is in `\x01-\x7F`). -/
def pyUpper (c : Char) : Char := c.toUpper

/-! ## The micro lexer: `shlex.shlex(line)` in non-POSIX mode

`BashParser.parse` drives a `shlex.shlex` lexer with default settings
(no `punctuation_chars`, `posix=False`, `commenters='#'`).  Its
`read_token` loop reads one character per iteration through the states
"whitespace" (`' '`), "word" (`'a'`), "inside quote", and the comment
sub-loop (`instream.readline()`), which we make an explicit state.  The
end-of-input token is the empty string, modelled as `[]`. -/

/-- Lexer state of `shlex.read_token`: start (`' '`), accumulating a word
(`'a'`), inside a quote, or skipping a comment (resuming either the start
state or a word with the accumulated token). -/
inductive LexSt where
  | start : LexSt
  | word : Str → LexSt
  | quot : Char → Str → LexSt
  | comment : Option Str → LexSt
deriving DecidableEq, Repr

/-- One `read_token` call, starting from `st`, on the remaining input.
Returns the token and the *unread* remaining input; the error is
`ValueError("No closing quotation")`.  The input is consumed lazily, one
character per step, exactly as `shlex` reads its stream. -/
def lexRun : LexSt → Str → Except Unit (Str × Str)
  | .start, [] => .ok ([], [])
  | .start, c :: r =>
    if isWs c then lexRun .start r
    else if c = '#' then lexRun (.comment none) r
    else if isWordCh c then lexRun (.word [c]) r
    else if isQuoteCh c then lexRun (.quot c [c]) r
    else .ok ([c], r)
  | .word t, [] => .ok (t, [])
  | .word t, c :: r =>
    if isWs c then .ok (t, r)
    else if c = '#' then lexRun (.comment (some t)) r
    else if isWordCh c || isQuoteCh c then lexRun (.word (t ++ [c])) r
    else .ok (t, c :: r)
  | .quot _ _, [] => .error ()
  | .quot q t, c :: r =>
    if c = q then .ok (t ++ [c], r)
    else lexRun (.quot q (t ++ [c])) r
  | .comment ret, [] => .ok (ret.getD [], [])
  | .comment ret, c :: r =>
    if c = '\n' then
      lexRun (match ret with | none => .start | some t => .word t) r
    else lexRun (.comment ret) r

/-- `lexer.get_token()` from a fresh token boundary. -/
def readToken (s : Str) : Except Unit (Str × Str) :=
  lexRun .start s

/-- The token accumulated so far in a lexer state (empty for states that
hold no pending word).  In every state reachable from `.start` the
accumulator of a word (or word-inside-comment) state consists of word
and quote characters only; this is the invariant that lets a token be
read identically from any extension of the input. -/
def lexAcc : LexSt → Str
  | .word t => t
  | .comment (some t) => t
  | _ => []

/-! ## The escape engine: `multi_sub`

`multi_sub(s, patterns)` joins the patterns into one alternation and
substitutes left to right; at each position the first pattern that
matches wins, and unmatched characters are copied through.  A rule is a
matcher (returning the matched length at the current position) together
with a replacement function on the matched text; replacement functions
can fail (Python `ValueError` from `int`/`chr`).  Every pattern in the
source tables matches at least the escape character, so matches are
always nonempty; the engine skips a (never occurring) empty match. -/

/-- One substitution rule: pattern matcher and replacement. -/
structure SubRule where
  pat : Str → Option Nat
  repl : Str → Except Unit Str

/-- First rule of the alternation matching at the current position
(nonempty matches only, as in the source tables). -/
def firstMatch : List SubRule → Str → Option (Nat × (Str → Except Unit Str))
  | [], _ => none
  | r :: rs, s =>
    match r.pat s with
    | some (n + 1) => some (n + 1, r.repl)
    | _ => firstMatch rs s

/-- Error outcome of the substitution engine: a failing replacement
(`ValueError`), or exhausted fuel (never happens with enough fuel). -/
inductive SubErr where
  | value : SubErr
  | fuel : SubErr
deriving DecidableEq, Repr

/-- The `re.sub` scan: at each position apply the first matching rule and
continue after the match, otherwise copy one character.  Fueled; each
step consumes at least one character, so `s.length` fuel suffices. -/
def multiSub (rules : List SubRule) : Nat → Str → Except SubErr Str
  | _, [] => .ok []
  | 0, _ :: _ => .error .fuel
  | f + 1, c :: rest =>
    match firstMatch rules (c :: rest) with
    | none => (multiSub rules f rest).map (fun t => c :: t)
    | some (n, repl) =>
      match repl ((c :: rest).take n) with
      | .error _ => .error .value
      | .ok r => (multiSub rules f ((c :: rest).drop n)).map (fun t => r ++ t)

/-- `multi_sub` with enough fuel for the whole string. -/
def multiSubW (rules : List SubRule) (s : Str) : Except SubErr Str :=
  multiSub rules (s.length + 1) s

/-- A literal pattern with a literal replacement. -/
def litRule (p r : Str) : SubRule :=
  ⟨fun s => if p.isPrefixOf s then some p.length else none, fun _ => .ok r⟩

/-- Length of the longest prefix of characters satisfying `p`, capped at
`limit` (the greedy bounded quantifiers `{1,3}`, `{1,2}`, ...). -/
def countPfx : Nat → (Char → Bool) → Str → Nat
  | 0, _, _ => 0
  | _, _, [] => 0
  | l + 1, p, c :: r => if p c then countPfx l p r + 1 else 0

/-- `\NNN` (1-3 greedy decimal digits, converted in base 8; a digit 8 or
9 makes the conversion fail, as in Python). -/
def octRule : SubRule :=
  ⟨fun s =>
    match s with
    | '\\' :: t =>
      match countPfx 3 isDigitCh t with
      | 0 => none
      | n + 1 => some (n + 2)
    | _ => none,
  fun m => (pyIntBase8 (m.drop 1)).bind (fun v => (pyChr v).map (fun c => [c]))⟩

/-- `\xHH` / `\uHHHH` / `\UHHHHHHHH`: marker character plus 1 to `maxd`
greedy hex digits, converted in base 16 and passed to `chr`. -/
def hexRule (marker : Char) (maxd : Nat) : SubRule :=
  ⟨fun s =>
    match s with
    | '\\' :: m :: t =>
      if m = marker then
        match countPfx maxd isHexCh t with
        | 0 => none
        | n + 1 => some (n + 3)
      else none
    | _ => none,
  fun m => (pyChr (pyIntBase16 (m.drop 2))).map (fun c => [c])⟩

/-- `\cX` with `X` in `\x01-\x7F`: `DEL` for `?`, otherwise
`chr(ord(X.upper()) & 0x1F)` (bash's `TOCTRL`). -/
def ctrlRule : SubRule :=
  ⟨fun s =>
    match s with
    | '\\' :: 'c' :: x :: _ =>
      if 1 ≤ x.toNat ∧ x.toNat ≤ 127 then some 3 else none
    | _ => none,
  fun m =>
    match m.drop 2 with
    | [x] => .ok [if x = '?' then Char.ofNat 127 else Char.ofNat ((pyUpper x).toNat &&& 31)]
    | _ => .error ()⟩

/-- The double-quote escape table, in source order. -/
def dqRules : List SubRule :=
  [litRule ['\\', '\\'] ['\\'],
   litRule ['\\', '"'] ['"'],
   litRule ['\\', '$'] ['$'],
   litRule ['\\', Char.ofNat 96] [Char.ofNat 96]]

/-- The ANSI-C (`$'...'`) escape table, in source order. -/
def ansiRules : List SubRule :=
  [litRule ['\\', 'a'] [Char.ofNat 7],
   litRule ['\\', 'b'] [Char.ofNat 8],
   litRule ['\\', 'e'] [Char.ofNat 27],
   litRule ['\\', 'E'] [Char.ofNat 27],
   litRule ['\\', 'f'] [Char.ofNat 12],
   litRule ['\\', 'n'] ['\n'],
   litRule ['\\', 'r'] [Char.ofNat 13],
   litRule ['\\', 't'] ['\t'],
   litRule ['\\', 'v'] [Char.ofNat 11],
   litRule ['\\', '\\'] ['\\'],
   litRule ['\\', '\''] ['\''],
   litRule ['\\', '"'] ['"'],
   litRule ['\\', '?'] ['?'],
   octRule,
   hexRule 'x' 2,
   hexRule 'u' 4,
   hexRule 'U' 8,
   ctrlRule]

/-- Unescaping of the body of a `"..."` token. -/
def dqUnescape (s : Str) : Except SubErr Str := multiSubW dqRules s

/-- Unescaping of the body of a `$'...'` token. -/
def ansiUnescape (s : Str) : Except SubErr Str := multiSubW ansiRules s

/-! ## `BashParser` -/

/-- Errors raised out of the codecs, as Python exceptions:
`format` is the `ValueError` raised by a failed structural expectation
(its message carries the raw line); `noClosingQuote` is
`ValueError("No closing quotation")` from `shlex`; `indexError` is the
`IndexError` raised by `unquote("")[0]` on a truncated line;
`valueError` is a `ValueError` from `int`/`chr` inside an escape
replacement.  `fuelExhausted` is a model artifact, proven unreachable. -/
inductive ParseErr where
  | format : Str → ParseErr
  | noClosingQuote : ParseErr
  | indexError : ParseErr
  | valueError : ParseErr
  | fuelExhausted : ParseErr
deriving DecidableEq, Repr

/-- Diagnostic message of an error (the exception's text). -/
def errMsg : ParseErr → Str
  | .format m => m
  | .noClosingQuote => "No closing quotation".toList
  | .indexError => "string index out of range".toList
  | .valueError => "invalid literal for int() with base 8".toList
  | .fuelExhausted => []

/-- `l` occurs as a contiguous substring of `m`. -/
def isSubstr (l m : Str) : Bool :=
  (List.range (m.length + 1)).any (fun i => l.isPrefixOf (m.drop i))

/-- The message carries the raw line when the line is a substring of it. -/
def carriesLine (e : ParseErr) (line : Str) : Bool :=
  isSubstr line (errMsg e)

/-- Error outcome of `BashParser.parse.unquote`. -/
inductive UnqErr where
  | index : UnqErr
  | value : UnqErr
  | fuel : UnqErr
deriving DecidableEq, Repr

/-- Lift a substitution failure. -/
def subToUnq : SubErr → UnqErr
  | .value => .value
  | .fuel => .fuel

/-- `BashParser.parse.unquote`: strip the quoting style of a token and
unescape its body.  `s[0]` on the empty token raises `IndexError`. -/
def unquote : Str → Except UnqErr Str
  | [] => .error .index
  | c :: rest =>
    if c = '\'' ∧ (c :: rest).getLast? = some '\'' then
      .ok rest.dropLast
    else if c = '"' ∧ (c :: rest).getLast? = some '"' then
      (dqUnescape rest.dropLast).mapError subToUnq
    else if ['$', '\''].isPrefixOf (c :: rest) ∧ (c :: rest).getLast? = some '\'' then
      (ansiUnescape ((c :: rest).drop 2).dropLast).mapError subToUnq
    else
      .ok (c :: rest)

/-- Lift an `unquote` failure into a parse failure. -/
def unqToParse : UnqErr → ParseErr
  | .index => .indexError
  | .value => .valueError
  | .fuel => .fuelExhausted

/-- `lexer.get_token()`, with the `shlex` failure mapped to its
`ValueError("No closing quotation")`. -/
def lexT (s : Str) : Except ParseErr (Str × Str) :=
  (readToken s).mapError (fun _ => ParseErr.noClosingQuote)

/-- The message of `BashParser.parse.expect`'s `ValueError`. -/
def expectMsg (line : Str) : Str :=
  "Expected input to be formatted like the output of the `declare -p` command from bash. Got: ".toList ++ line

/-- `expect(token, expectation)` for a string expectation. -/
def expectTok (line tok e : Str) : Except ParseErr Unit :=
  if tok = e then .ok () else .error (.format (expectMsg line))

/-- `expect(token, expectation)` for a list expectation. -/
def expectIn (line tok : Str) (es : List Str) : Except ParseErr Unit :=
  if tok ∈ es then .ok () else .error (.format (expectMsg line))

/-- Reading one key or value token: `get_token()`, and if the token is
the bare `$` adjacency marker, concatenate the following token. -/
def lexItem (s : Str) : Except ParseErr (Str × Str) := do
  let (tok, s₁) ← lexT s
  if tok = ['$'] then do
    let (tok₂, s₂) ← lexT s₁
    pure (tok ++ tok₂, s₂)
  else
    pure (tok, s₁)

/-- `d[k] = v` on a Python dict: overwrite in place, else append. -/
def dictInsert (d : Dict) (k v : Str) : Dict :=
  if d.any (fun p => p.1 = k) then
    d.map (fun p => if p.1 = k then (p.1, v) else p)
  else d ++ [(k, v)]

/-- The key/value loop of `BashParser.parse`: while the next token is
neither `)` nor end-of-input, read `[`, key, `]`, `=`, value and store
the pair; after the loop the token must have been `)`.  Fueled: each
iteration consumes at least one input character. -/
def parseLoop (line : Str) : Nat → Dict → Str → Except ParseErr (Dict × Str)
  | 0, _, _ => .error .fuelExhausted
  | f + 1, data, s => do
    let (tok, s₁) ← lexT s
    if tok = [')'] then
      pure (data, s₁)
    else if tok = [] then
      .error (.format (expectMsg line))
    else do
      expectTok line tok ['[']
      let (ktok, s₂) ← lexItem s₁
      let key ← (unquote ktok).mapError unqToParse
      let (t₃, s₃) ← lexT s₂
      expectTok line t₃ [']']
      let (t₄, s₄) ← lexT s₃
      expectTok line t₄ ['=']
      let (vtok, s₅) ← lexItem s₄
      let v ← (unquote vtok).mapError unqToParse
      parseLoop line f (dictInsert data key v) s₅

/-- `BashParser.parse`, also returning the input left unread (the lexer
is lazy, so anything after the closing `)` is never examined). -/
def bashParseCore (line : Str) : Except ParseErr (Dict × Str) := do
  let (t₁, s₁) ← lexT line
  expectIn line t₁ ["declare".toList, "typeset".toList]
  let (t₂, s₂) ← lexT s₁
  expectTok line t₂ ['-']
  let (t₃, s₃) ← lexT s₂
  expectTok line t₃ ['A']
  let (_, s₄) ← lexT s₃
  let (t₅, s₅) ← lexT s₄
  expectTok line t₅ ['=']
  let (t₆, s₆) ← lexT s₅
  expectTok line t₆ ['(']
  parseLoop line (line.length + 1) [] s₆

/-- `BashParser.parse`. -/
def bashParse (line : Str) : Except ParseErr Dict :=
  (bashParseCore line).map (fun p => p.1)

/-- The safe characters of `shlex.quote`: ASCII word characters and
the punctuation `@ % + = : , . /` and the dash. -/
def isSafeCh (c : Char) : Bool :=
  isWordCh c || c = '@' || c = '%' || c = '+' || c = '=' || c = ':' ||
    c = ',' || c = '.' || c = '/' || c = '-'

/-- `shlex.quote(s)` (CPython): empty becomes `''`; strings of safe
characters are returned as is; otherwise wrap in single quotes, splicing
each embedded single quote as `'"'"'`. -/
def shlexQuote (s : Str) : Str :=
  if s = [] then ['\'', '\'']
  else if s.all isSafeCh then s
  else '\'' :: (s.flatMap (fun c => if c = '\'' then ['\'', '"', '\'', '"', '\''] else [c])) ++ ['\'']

/-- `BashParser.unparse`: only the inner `[key]=value` payload, values
passed through `shlex.quote`, entries joined by single spaces. -/
def bashUnparse (data : Dict) : Str :=
  List.intercalate [' '] (data.map (fun p => '[' :: p.1 ++ [']', '='] ++ shlexQuote p.2))

/-! ## `SimpleParser` -/

/-- `line.split("\t")`. -/
def splitTab : Str → List Str
  | [] => [[]]
  | c :: r =>
    let rest := splitTab r
    if c = '\t' then [] :: rest
    else (c :: rest.headI) :: rest.tail

/-- Elements at even positions (`components[::2]`). -/
def evens : List Str → List Str
  | [] => []
  | [a] => [a]
  | a :: _ :: r => a :: evens r

/-- Elements at odd positions (`components[1::2]`). -/
def odds (l : List Str) : List Str :=
  evens l.tail

/-- A Python dict built from key/value pairs in order (comprehension
semantics: later duplicate keys overwrite earlier ones). -/
def buildDict (ps : List (Str × Str)) : Dict :=
  ps.foldl (fun d p => dictInsert d p.1 p.2) []

/-- The message of `SimpleParser.parse`'s `ValueError`. -/
def simpleMsg (line : Str) : Str :=
  "Expected key value pairs, but at least one key has no value: ".toList ++ line

/-- `SimpleParser.parse`: split on TAB; an odd field count is an error,
otherwise pair up alternating fields. -/
def simpleParse (line : Str) : Except ParseErr Dict :=
  let components := splitTab line
  if components.length % 2 ≠ 0 then
    .error (.format (simpleMsg line))
  else
    .ok (buildDict ((evens components).zip (odds components)))

/-- `SimpleParser.unparse`: join entries as `key<TAB>value`, stripping
newline characters from values (`value.replace("\n", "")`). -/
def simpleUnparse (data : Dict) : Str :=
  List.intercalate ['\t'] (data.map (fun p => p.1 ++ '\t' :: p.2.filter (fun c => c ≠ '\n')))

/-! ## `JsonParser`

`JsonParser.parse` delegates the decoding itself to the standard
library (`json.loads`, code outside this repository) and only inspects
its outcome: a decoded value that is not a dict raises the `ValueError`
whose message appends the raw line, a `json.JSONDecodeError` is
re-raised as `ValueError(error)` with the decoder's own message, and a
decoded dict is returned as is.  The `json.loads` call is therefore
abstracted as an oracle argument describing its outcome. -/

/-- Outcome of the stdlib call `json.loads(line)`: a decode failure
with the decoder's message, a decoded value that is a dict (with its
key-value pairs), or a decoded value of any other type. -/
inductive JsonLoads where
  | decodeError : Str → JsonLoads
  | dict : Dict → JsonLoads
  | nonDict : JsonLoads
deriving DecidableEq, Repr

/-- `JsonParser.parse` over the abstracted `json.loads` outcome. -/
def jsonParse (line : Str) (loaded : JsonLoads) : Except ParseErr Dict :=
  match loaded with
  | .dict d => .ok d
  | .nonDict => .error (.format ("Expected to parse an json object, got ".toList ++ line))
  | .decodeError m => .error (.format m)

/-! ## The registry: `ParserOption` -/

/-- The closed enumeration of codecs. -/
inductive ParserOption where
  | json : ParserOption
  | simple : ParserOption
  | bash : ParserOption
deriving DecidableEq, Repr

/-- `get_name()` of the parser class bound to an option (the enum
member's value). -/
def optionName : ParserOption → Str
  | .json => "json".toList
  | .simple => "simple".toList
  | .bash => "bash".toList

/-- Value lookup `ParserOption(name)`: the member whose value equals the
name, failing (Python `ValueError`, the spec's `ConfigError`) for any
other name. -/
def parserOptionOfValue (s : Str) : Except Unit ParserOption :=
  if s = optionName .json then .ok .json
  else if s = optionName .simple then .ok .simple
  else if s = optionName .bash then .ok .bash
  else .error ()

/-! ## Supporting lemmas for the simple codec -/

theorem intercalate_cons₂ (s : Str) (a : Str) (b : Str) (t : List Str) :
    List.intercalate s (a :: b :: t) = a ++ s ++ List.intercalate s (b :: t) := by
  simp [List.intercalate, List.intersperse_cons_cons]

theorem splitTab_no_tab (f : Str) (hf : '\t' ∉ f) : splitTab f = [f] := by
  induction f with
  | nil => rfl
  | cons c r ih =>
    have hc : ¬ c = '\t' := fun h => hf (h ▸ List.mem_cons_self c r)
    have hr : '\t' ∉ r := fun h => hf (List.mem_cons_of_mem c h)
    simp [splitTab, hc, ih hr]

theorem splitTab_append_tab (f : Str) (s : Str) (hf : '\t' ∉ f) :
    splitTab (f ++ '\t' :: s) = f :: splitTab s := by
  induction f with
  | nil => simp [splitTab]
  | cons c r ih =>
    have hc : ¬ c = '\t' := fun h => hf (h ▸ List.mem_cons_self c r)
    have hr : '\t' ∉ r := fun h => hf (List.mem_cons_of_mem c h)
    simp [splitTab, hc, ih hr]

theorem splitTab_intercalate (fields : List Str) (hne : fields ≠ [])
    (hft : ∀ f ∈ fields, '\t' ∉ f) :
    splitTab (List.intercalate ['\t'] fields) = fields := by
  induction fields with
  | nil => exact absurd rfl hne
  | cons f rest ih =>
    cases rest with
    | nil =>
      have : List.intercalate ['\t'] [f] = f := by simp [List.intercalate]
      rw [this]
      exact splitTab_no_tab f (hft f (List.mem_cons_self f []))
    | cons g t =>
      rw [intercalate_cons₂]
      have hf : '\t' ∉ f := hft f (List.mem_cons_self f (g :: t))
      have : f ++ ['\t'] ++ List.intercalate ['\t'] (g :: t)
          = f ++ '\t' :: List.intercalate ['\t'] (g :: t) := by simp
      rw [this, splitTab_append_tab f _ hf]
      have := ih (by simp) (fun x hx => hft x (List.mem_cons_of_mem f hx))
      rw [this]

/-! ## C9: the registry -/

/-- C9: Registry lookup of each of the names "json", "simple", "bash"
returns a distinct codec whose name() equals the looked-up name, and
lookup of any name outside these three fails with ConfigError (the
lookup failure of the enumeration). -/
theorem C9_registry_lookup :
    parserOptionOfValue "json".toList = .ok .json ∧
    parserOptionOfValue "simple".toList = .ok .simple ∧
    parserOptionOfValue "bash".toList = .ok .bash ∧
    optionName .json = "json".toList ∧
    optionName .simple = "simple".toList ∧
    optionName .bash = "bash".toList ∧
    (ParserOption.json ≠ ParserOption.simple ∧
     ParserOption.json ≠ ParserOption.bash ∧
     ParserOption.simple ≠ ParserOption.bash) ∧
    (∀ s : Str, s ≠ optionName .json → s ≠ optionName .simple →
      s ≠ optionName .bash → parserOptionOfValue s = .error ()) := by
  refine ⟨by decide, by decide, by decide, by decide, by decide, by decide, by decide, ?_⟩
  intro s h₁ h₂ h₃
  simp [parserOptionOfValue, h₁, h₂, h₃]

/-- Witness for C9: looking up the unknown name "xml" fails. -/
theorem C9_registry_lookup_witness :
    parserOptionOfValue "xml".toList = .error () := by
  exact C9_registry_lookup.2.2.2.2.2.2.2 "xml".toList (by decide) (by decide) (by decide)

/-! ## C8: field parity of the simple codec -/

/-- C8: SimpleParser.parse splits its line on TAB; an odd field count
fails with FormatError (carrying the line), an even count returns the
mapping of the alternating key, value fields (shown both on arbitrary
lines through the split, and on lines assembled by joining TAB-free
fields); in particular parse("a\tb\tc") fails. -/
theorem C8_simple_parity :
    (∀ line : Str, (splitTab line).length % 2 = 1 →
        simpleParse line = .error (.format (simpleMsg line))) ∧
    (∀ line : Str, (splitTab line).length % 2 = 0 →
        simpleParse line = .ok (buildDict ((evens (splitTab line)).zip (odds (splitTab line))))) ∧
    (∀ fields : List Str, fields ≠ [] → (∀ f ∈ fields, '\t' ∉ f) →
        splitTab (List.intercalate ['\t'] fields) = fields) ∧
    simpleParse "a\tb\tc".toList = .error (.format (simpleMsg "a\tb\tc".toList)) := by
  refine ⟨?_, ?_, splitTab_intercalate, by decide⟩
  · intro line h
    simp only [simpleParse]
    rw [if_pos (by omega)]
  · intro line h
    simp only [simpleParse]
    rw [if_neg (by omega)]

/-- Witness for C8: an even line parses to the alternating mapping. -/
theorem C8_simple_parity_witness :
    simpleParse "a\tb".toList = .ok [("a".toList, "b".toList)] := by
  have h := C8_simple_parity.2.1 "a\tb".toList (by decide)
  rw [h]
  decide

/-! ## Supporting lemmas for the escape engine -/

theorem firstMatch_pos {rules : List SubRule} {s : Str} {n : Nat}
    {r : Str → Except Unit Str} (h : firstMatch rules s = some (n, r)) : 1 ≤ n := by
  induction rules with
  | nil => simp [firstMatch] at h
  | cons a rs ih =>
    simp only [firstMatch] at h
    cases hm : a.pat s with
    | none => rw [hm] at h; exact ih h
    | some k =>
      rw [hm] at h
      cases k with
      | zero => exact ih h
      | succ m => cases h; omega

theorem multiSub_fuel (rules : List SubRule) :
    ∀ f₁ f₂ s, s.length ≤ f₁ → s.length ≤ f₂ →
      multiSub rules f₁ s = multiSub rules f₂ s := by
  intro f₁
  induction f₁ with
  | zero =>
    intro f₂ s h₁ _
    have : s = [] := List.length_eq_zero.mp (Nat.le_zero.mp h₁)
    subst this
    cases f₂ <;> rfl
  | succ f ih =>
    intro f₂ s h₁ h₂
    cases s with
    | nil => cases f₂ <;> rfl
    | cons c rest =>
      cases f₂ with
      | zero => simp at h₂
      | succ f' =>
        simp only [multiSub]
        cases hm : firstMatch rules (c :: rest) with
        | none =>
          have hr : rest.length ≤ f := by simp at h₁; omega
          have hr' : rest.length ≤ f' := by simp at h₂; omega
          simp [ih f' rest hr hr']
        | some nr =>
          obtain ⟨n, repl⟩ := nr
          have hn : 1 ≤ n := firstMatch_pos hm
          cases hrep : repl ((c :: rest).take n) with
          | error e => simp [hrep]
          | ok r =>
            have hd : ((c :: rest).drop n).length ≤ f := by
              simp [List.length_drop] at *
              omega
            have hd' : ((c :: rest).drop n).length ≤ f' := by
              simp [List.length_drop] at *
              omega
            simp [hrep, ih f' _ hd hd']

theorem multiSub_eq_wrapper (rules : List SubRule) (f : Nat) (s : Str)
    (h : s.length ≤ f) : multiSub rules f s = multiSubW rules s :=
  multiSub_fuel rules f (s.length + 1) s h (Nat.le_succ _)

theorem multiSubW_cons_match {rules : List SubRule} {c : Char} {rest : Str}
    {n : Nat} {repl : Str → Except Unit Str}
    (h : firstMatch rules (c :: rest) = some (n, repl)) :
    multiSubW rules (c :: rest) =
      match repl ((c :: rest).take n) with
      | .error _ => .error .value
      | .ok r => (multiSubW rules ((c :: rest).drop n)).map (fun t => r ++ t) := by
  have hn : 1 ≤ n := firstMatch_pos h
  rw [show multiSubW rules (c :: rest) = multiSub rules (rest.length + 1 + 1) (c :: rest) from rfl]
  simp only [multiSub, h]
  cases hrep : repl ((c :: rest).take n) with
  | error e => simp [hrep]
  | ok r =>
    simp only [hrep]
    rw [multiSub_eq_wrapper rules (rest.length + 1) ((c :: rest).drop n)
      (by simp [List.length_drop])]

theorem multiSubW_cons_none {rules : List SubRule} {c : Char} {rest : Str}
    (h : firstMatch rules (c :: rest) = none) :
    multiSubW rules (c :: rest) = (multiSubW rules rest).map (fun t => c :: t) := by
  simp only [multiSubW, List.length_cons, multiSub, h]

theorem countPfx_exact (p : Char → Bool) :
    ∀ (limit : Nat) (ds rest : Str), ds.length ≤ limit →
      (∀ c ∈ ds, p c = true) →
      (ds.length = limit ∨ ∀ c, rest.head? = some c → p c = false) →
      countPfx limit p (ds ++ rest) = ds.length := by
  intro limit
  induction limit with
  | zero =>
    intro ds rest hlen _ _
    have : ds = [] := List.length_eq_zero.mp (Nat.le_zero.mp hlen)
    subst this
    cases rest <;> rfl
  | succ l ih =>
    intro ds rest hlen hds hstop
    cases ds with
    | nil =>
      rcases hstop with h | h
      · simp at h
      · cases rest with
        | nil => rfl
        | cons c r => simp only [List.nil_append, countPfx, h c rfl]; rfl
    | cons d ds' =>
      have hd : p d = true := hds d (List.mem_cons_self _ _)
      simp only [List.cons_append, countPfx, hd, if_pos]
      have : countPfx l p (ds' ++ rest) = ds'.length := by
        refine ih ds' rest (by simpa using hlen) (fun c hc => hds c (List.mem_cons_of_mem _ hc)) ?_
        rcases hstop with h | h
        · left; simpa using h
        · right; exact h
      simp [this]

/-! ## C6: the double-quote escape table -/

theorem unquote_dq (s : Str) :
    unquote ('"' :: s ++ ['"']) = (dqUnescape s).mapError subToUnq := by
  have hlast : ('"' :: (s ++ ['"'])).getLast? = some '"' := by
    rw [show ('"' :: (s ++ ['"']) : Str) = ('"' :: s) ++ ['"'] from by simp]
    exact List.getLast?_concat _
  rw [show ('"' :: s ++ ['"'] : Str) = '"' :: (s ++ ['"']) from rfl, unquote.eq_2]
  rw [if_neg (by simp), if_pos (by simp [hlast])]
  congr 1
  simp

/-- C6: unquoting a double-quoted token applies exactly the substitutions
of the double-quote table, in a single left-to-right scan with
first-match-wins ordering: escaped backslash, double quote, dollar and
backtick are unescaped, every other character (in particular every other
backslash sequence) is copied through; parse of
declare -A x=([k]="a\$b") yields k -> a$b. -/
theorem C6_double_quote_escapes :
    (∀ s : Str, unquote ('"' :: s ++ ['"']) = (dqUnescape s).mapError subToUnq) ∧
    (∀ rest : Str, dqUnescape ('\\' :: '\\' :: rest) = (dqUnescape rest).map (fun t => '\\' :: t)) ∧
    (∀ rest : Str, dqUnescape ('\\' :: '"' :: rest) = (dqUnescape rest).map (fun t => '"' :: t)) ∧
    (∀ rest : Str, dqUnescape ('\\' :: '$' :: rest) = (dqUnescape rest).map (fun t => '$' :: t)) ∧
    (∀ rest : Str, dqUnescape ('\\' :: Char.ofNat 96 :: rest) =
      (dqUnescape rest).map (fun t => Char.ofNat 96 :: t)) ∧
    (∀ (c : Char) (rest : Str), c ≠ '\\' → c ≠ '"' → c ≠ '$' → c ≠ Char.ofNat 96 →
      dqUnescape ('\\' :: c :: rest) = (dqUnescape (c :: rest)).map (fun t => '\\' :: t)) ∧
    (∀ (c : Char) (rest : Str), c ≠ '\\' →
      dqUnescape (c :: rest) = (dqUnescape rest).map (fun t => c :: t)) ∧
    dqUnescape ['\\'] = .ok ['\\'] ∧
    bashParse "declare -A x=([k]=\"a\\$b\")".toList = .ok [("k".toList, "a$b".toList)] := by
  refine ⟨unquote_dq, ?_, ?_, ?_, ?_, ?_, ?_, by decide, by decide⟩
  · intro rest
    have h : firstMatch dqRules ('\\' :: '\\' :: rest) =
        some (2, (litRule ['\\', '\\'] ['\\']).repl) := by
      simp [firstMatch, dqRules, litRule, List.isPrefixOf]
    simp only [dqUnescape]
    rw [multiSubW_cons_match h]
    simp [litRule, dqUnescape]
  · intro rest
    have h : firstMatch dqRules ('\\' :: '"' :: rest) =
        some (2, (litRule ['\\', '"'] ['"']).repl) := by
      simp [firstMatch, dqRules, litRule, List.isPrefixOf]
    simp only [dqUnescape]
    rw [multiSubW_cons_match h]
    simp [litRule, dqUnescape]
  · intro rest
    have h : firstMatch dqRules ('\\' :: '$' :: rest) =
        some (2, (litRule ['\\', '$'] ['$']).repl) := by
      simp [firstMatch, dqRules, litRule, List.isPrefixOf]
    simp only [dqUnescape]
    rw [multiSubW_cons_match h]
    simp [litRule, dqUnescape]
  · intro rest
    have h : firstMatch dqRules ('\\' :: Char.ofNat 96 :: rest) =
        some (2, (litRule ['\\', Char.ofNat 96] [Char.ofNat 96]).repl) := by
      simp [firstMatch, dqRules, litRule, List.isPrefixOf]
    simp only [dqUnescape]
    rw [multiSubW_cons_match h]
    simp [litRule, dqUnescape]
  · intro c rest h1 h2 h3 h4
    have h : firstMatch dqRules ('\\' :: c :: rest) = none := by
      simp [firstMatch, dqRules, litRule, List.isPrefixOf,
        Ne.symm h1, Ne.symm h2, Ne.symm h3, Ne.symm h4]
    simp only [dqUnescape]
    exact multiSubW_cons_none h
  · intro c rest h1
    have h : firstMatch dqRules (c :: rest) = none := by
      cases rest with
      | nil => simp [firstMatch, dqRules, litRule, List.isPrefixOf, Ne.symm h1]
      | cons d r => simp [firstMatch, dqRules, litRule, List.isPrefixOf, Ne.symm h1]
    simp only [dqUnescape]
    exact multiSubW_cons_none h

/-- Witness for C6: a backslash sequence outside the table passes
through literally. -/
theorem C6_double_quote_escapes_witness :
    dqUnescape ['\\', 'x'] = .ok ['\\', 'x'] := by
  have h := C6_double_quote_escapes.2.2.2.2.2.1 'x' [] (by decide) (by decide) (by decide) (by decide)
  rw [h]
  decide

/-! ## Supporting lemmas for the ANSI-C escape table -/

theorem unquote_ansi (s : Str) :
    unquote ('$' :: '\'' :: (s ++ ['\''])) = (ansiUnescape s).mapError subToUnq := by
  have hlast : ('\'' :: (s ++ ['\''])).getLast? = some '\'' := by
    rw [show ('\'' :: (s ++ ['\'']) : Str) = ('\'' :: s) ++ ['\''] from by simp]
    exact List.getLast?_concat _
  rw [unquote.eq_2]
  rw [if_neg (by simp), if_neg (by simp), if_pos (by simp [List.isPrefixOf, hlast])]
  congr 1
  simp

theorem ansiUnescape_lit (x r : Char) (rest : Str)
    (h : firstMatch ansiRules ('\\' :: x :: rest) = some (2, (litRule ['\\', x] [r]).repl)) :
    ansiUnescape ('\\' :: x :: rest) = (ansiUnescape rest).map (fun t => r :: t) := by
  simp only [ansiUnescape]
  rw [multiSubW_cons_match h]
  simp [litRule, ansiUnescape]

theorem isDigitCh_of_isOctCh {c : Char} (h : isOctCh c = true) : isDigitCh c = true := by
  simp only [isOctCh, Bool.and_eq_true, decide_eq_true_eq] at h
  simp only [isDigitCh, Bool.and_eq_true, decide_eq_true_eq]
  omega

theorem digVal_le_of_isOctCh {c : Char} (h : isOctCh c = true) : digVal c ≤ 7 := by
  simp only [isOctCh, Bool.and_eq_true, decide_eq_true_eq] at h
  simp only [digVal]
  omega

theorem hexVal_lt_of_isHexCh {c : Char} (h : isHexCh c = true) : hexVal c < 16 := by
  simp only [isHexCh, isDigitCh, Bool.or_eq_true, Bool.and_eq_true, decide_eq_true_eq] at h
  simp only [hexVal]
  split
  · omega
  · split <;> omega

theorem octFold_lt : ∀ (ds : Str) (a : Nat), (∀ c ∈ ds, isOctCh c = true) →
    ds.foldl (fun x c => 8 * x + digVal c) a < (a + 1) * 8 ^ ds.length := by
  intro ds
  induction ds with
  | nil =>
    intro a _
    simp only [List.foldl_nil, List.length_nil, pow_zero, Nat.mul_one]
    omega
  | cons d ds' ih =>
    intro a h
    have hd : digVal d ≤ 7 := digVal_le_of_isOctCh (h d (List.mem_cons_self _ _))
    have := ih (8 * a + digVal d) (fun c hc => h c (List.mem_cons_of_mem _ hc))
    calc (d :: ds').foldl (fun x c => 8 * x + digVal c) a
        = ds'.foldl (fun x c => 8 * x + digVal c) (8 * a + digVal d) := rfl
      _ < (8 * a + digVal d + 1) * 8 ^ ds'.length := this
      _ ≤ (a + 1) * 8 ^ (ds'.length + 1) := by
          rw [pow_succ]
          have h8 : 8 * a + digVal d + 1 ≤ (a + 1) * 8 := by omega
          calc (8 * a + digVal d + 1) * 8 ^ ds'.length
              ≤ ((a + 1) * 8) * 8 ^ ds'.length := Nat.mul_le_mul_right _ h8
            _ = (a + 1) * (8 ^ ds'.length * 8) := by ring
      _ = (a + 1) * 8 ^ (d :: ds').length := by simp

theorem hexFold_lt : ∀ (ds : Str) (a : Nat), (∀ c ∈ ds, isHexCh c = true) →
    ds.foldl (fun x c => 16 * x + hexVal c) a < (a + 1) * 16 ^ ds.length := by
  intro ds
  induction ds with
  | nil =>
    intro a _
    simp only [List.foldl_nil, List.length_nil, pow_zero, Nat.mul_one]
    omega
  | cons d ds' ih =>
    intro a h
    have hd : hexVal d < 16 := hexVal_lt_of_isHexCh (h d (List.mem_cons_self _ _))
    have := ih (16 * a + hexVal d) (fun c hc => h c (List.mem_cons_of_mem _ hc))
    calc (d :: ds').foldl (fun x c => 16 * x + hexVal c) a
        = ds'.foldl (fun x c => 16 * x + hexVal c) (16 * a + hexVal d) := rfl
      _ < (16 * a + hexVal d + 1) * 16 ^ ds'.length := this
      _ ≤ (a + 1) * 16 ^ (ds'.length + 1) := by
          rw [pow_succ]
          have h16 : 16 * a + hexVal d + 1 ≤ (a + 1) * 16 := by omega
          calc (16 * a + hexVal d + 1) * 16 ^ ds'.length
              ≤ ((a + 1) * 16) * 16 ^ ds'.length := Nat.mul_le_mul_right _ h16
            _ = (a + 1) * (16 ^ ds'.length * 16) := by ring
      _ = (a + 1) * 16 ^ (d :: ds').length := by simp
theorem firstMatch_ansi_oct (d : Char) (t : Str) (k : Nat)
    (hd : isDigitCh d = true)
    (hcount : countPfx 3 isDigitCh (d :: t) = k + 1) :
    firstMatch ansiRules ('\\' :: d :: t) = some (k + 2, octRule.repl) := by
  have hb : 48 ≤ d.toNat ∧ d.toNat ≤ 57 := by
    simpa [isDigitCh, Bool.and_eq_true, decide_eq_true_eq] using hd
  have hne : ∀ x : Char, x.toNat < 48 ∨ 57 < x.toNat → x ≠ d := by
    intro x hx h
    rw [← h] at hb
    omega
  simp [firstMatch, ansiRules, litRule, octRule, List.isPrefixOf, hcount,
    hne 'a' (by decide), hne 'b' (by decide), hne 'e' (by decide), hne 'E' (by decide),
    hne 'f' (by decide), hne 'n' (by decide), hne 'r' (by decide), hne 't' (by decide),
    hne 'v' (by decide), hne '\\' (by decide), hne '\'' (by decide), hne '"' (by decide),
    hne '?' (by decide)]

theorem firstMatch_ansi_x (t : Str) (k : Nat)
    (hcount : countPfx 2 isHexCh t = k + 1) :
    firstMatch ansiRules ('\\' :: 'x' :: t) = some (k + 3, (hexRule 'x' 2).repl) := by
  simp [firstMatch, ansiRules, litRule, octRule, hexRule, countPfx, List.isPrefixOf,
    hcount, isDigitCh]

theorem firstMatch_ansi_u (t : Str) (k : Nat)
    (hcount : countPfx 4 isHexCh t = k + 1) :
    firstMatch ansiRules ('\\' :: 'u' :: t) = some (k + 3, (hexRule 'u' 4).repl) := by
  simp [firstMatch, ansiRules, litRule, octRule, hexRule, countPfx, List.isPrefixOf,
    hcount, isDigitCh]

theorem firstMatch_ansi_UU (t : Str) (k : Nat)
    (hcount : countPfx 8 isHexCh t = k + 1) :
    firstMatch ansiRules ('\\' :: 'U' :: t) = some (k + 3, (hexRule 'U' 8).repl) := by
  simp [firstMatch, ansiRules, litRule, octRule, hexRule, countPfx, List.isPrefixOf,
    hcount, isDigitCh]

theorem firstMatch_ansi_ctrl (x : Char) (t : Str) (h1 : 1 ≤ x.toNat) (h2 : x.toNat ≤ 127) :
    firstMatch ansiRules ('\\' :: 'c' :: x :: t) = some (3, ctrlRule.repl) := by
  simp [firstMatch, ansiRules, litRule, octRule, hexRule, ctrlRule, countPfx,
    List.isPrefixOf, h1, h2, isDigitCh]

theorem ansiUnescape_oct (ds rest : Str) (h1 : 1 ≤ ds.length) (h2 : ds.length ≤ 3)
    (hall : ∀ c ∈ ds, isOctCh c = true)
    (hstop : ds.length = 3 ∨ ∀ c, rest.head? = some c → isDigitCh c = false) :
    ansiUnescape ('\\' :: (ds ++ rest)) =
      (ansiUnescape rest).map
        (fun t => Char.ofNat (ds.foldl (fun a c => 8 * a + digVal c) 0) :: t) := by
  obtain ⟨d, ds', rfl⟩ : ∃ d ds', ds = d :: ds' := by
    cases ds with
    | nil => simp at h1
    | cons a b => exact ⟨a, b, rfl⟩
  have hdig : ∀ c ∈ d :: ds', isDigitCh c = true :=
    fun c hc => isDigitCh_of_isOctCh (hall c hc)
  have hcount : countPfx 3 isDigitCh ((d :: ds') ++ rest) = ds'.length + 1 := by
    have := countPfx_exact isDigitCh 3 (d :: ds') rest h2 hdig hstop
    simpa using this
  have hfm := firstMatch_ansi_oct d (ds' ++ rest) ds'.length
    (hdig d (List.mem_cons_self _ _)) (by simpa using hcount)
  have hlt : (d :: ds').foldl (fun a c => 8 * a + digVal c) 0 < 55296 := by
    have hb := octFold_lt (d :: ds') 0 hall
    have hp : (8 : Nat) ^ (d :: ds').length ≤ 8 ^ 3 :=
      Nat.pow_le_pow_right (by norm_num) h2
    simp only [Nat.one_mul] at hb
    omega
  simp only [ansiUnescape]
  rw [show ('\\' :: ((d :: ds') ++ rest) : Str) = '\\' :: d :: (ds' ++ rest) from by simp]
  rw [multiSubW_cons_match hfm]
  have htake : ('\\' :: d :: (ds' ++ rest) : Str).take (ds'.length + 2)
      = '\\' :: d :: ds' := by
    simp [List.take_left]
  have hdrop : ('\\' :: d :: (ds' ++ rest) : Str).drop (ds'.length + 2) = rest := by
    simp [List.drop_left]
  rw [show ds'.length + 2 = ds'.length + 2 from rfl, htake, hdrop]
  have hrepl : octRule.repl ('\\' :: d :: ds') =
      .ok [Char.ofNat ((d :: ds').foldl (fun a c => 8 * a + digVal c) 0)] := by
    simp only [octRule, List.drop_succ_cons, List.drop_zero]
    rw [show pyIntBase8 (d :: ds')
        = .ok ((d :: ds').foldl (fun a c => 8 * a + digVal c) 0) from by
      simp [pyIntBase8, List.all_eq_true.mpr hall]]
    have hlt' : List.foldl (fun a c => 8 * a + digVal c) (digVal d) ds' < 55296 := by
      have hz : (8 : Nat) * 0 + digVal d = digVal d := by omega
      simpa [hz] using hlt
    simp only [Except.bind]
    rw [show pyChr ((d :: ds').foldl (fun a c => 8 * a + digVal c) 0)
        = .ok (Char.ofNat ((d :: ds').foldl (fun a c => 8 * a + digVal c) 0)) from by
      simp only [pyChr]
      rw [if_pos]
      simp
      omega]
    rfl
  rw [hrepl]
  simp

theorem ansiUnescape_hexgen (marker : Char) (limit : Nat) (ds rest : Str)
    (hfm : firstMatch ansiRules ('\\' :: marker :: (ds ++ rest))
      = some (ds.length + 2, (hexRule marker limit).repl))
    (hval : pyChr (pyIntBase16 ds) = .ok (Char.ofNat (pyIntBase16 ds))) :
    ansiUnescape ('\\' :: marker :: (ds ++ rest)) =
      (ansiUnescape rest).map (fun t => Char.ofNat (pyIntBase16 ds) :: t) := by
  simp only [ansiUnescape]
  rw [multiSubW_cons_match hfm]
  have htake : ('\\' :: marker :: (ds ++ rest) : Str).take (ds.length + 2)
      = '\\' :: marker :: ds := by
    simp [List.take_left]
  have hdrop : ('\\' :: marker :: (ds ++ rest) : Str).drop (ds.length + 2) = rest := by
    simp [List.drop_left]
  rw [htake, hdrop]
  have hrepl : (hexRule marker limit).repl ('\\' :: marker :: ds)
      = .ok [Char.ofNat (pyIntBase16 ds)] := by
    simp only [hexRule, List.drop_succ_cons, List.drop_zero]
    rw [hval]
    rfl
  rw [hrepl]
  simp

theorem ansiUnescape_ctrl (x : Char) (rest : Str) (h1 : 1 ≤ x.toNat) (h2 : x.toNat ≤ 127) :
    ansiUnescape ('\\' :: 'c' :: x :: rest) =
      (ansiUnescape rest).map (fun t =>
        (if x = '?' then Char.ofNat 127 else Char.ofNat ((pyUpper x).toNat &&& 31)) :: t) := by
  have hfm := firstMatch_ansi_ctrl x rest h1 h2
  simp only [ansiUnescape]
  rw [multiSubW_cons_match hfm]
  simp [ctrlRule, ansiUnescape]

/-! ## C2: the ANSI-C escape table -/

/-- C2: unquoting a `$'...'` token applies the ANSI-C escape table:
the control escapes a, b, e, E, f, n, r, t, v, the literal escapes for
backslash, single quote, double quote and question mark, greedy octal
(1-3 digits, base 8), greedy hex (1-2 digits), Unicode u (up to 4 hex
digits, for scalar values) and U (up to 8 hex digits, for scalar
values), and the control form cX mapping ? to DEL and X to
uppercase(X) & 0x1F; in particular parse of
declare -A x=([k]=$'\x41\x42') yields k -> AB. -/
theorem C2_ansi_escape_table :
    (∀ s : Str, unquote ('$' :: '\'' :: (s ++ ['\''])) = (ansiUnescape s).mapError subToUnq) ∧
    (∀ rest : Str,
      ansiUnescape ('\\' :: 'a' :: rest) = (ansiUnescape rest).map (fun t => Char.ofNat 7 :: t) ∧
      ansiUnescape ('\\' :: 'b' :: rest) = (ansiUnescape rest).map (fun t => Char.ofNat 8 :: t) ∧
      ansiUnescape ('\\' :: 'e' :: rest) = (ansiUnescape rest).map (fun t => Char.ofNat 27 :: t) ∧
      ansiUnescape ('\\' :: 'E' :: rest) = (ansiUnescape rest).map (fun t => Char.ofNat 27 :: t) ∧
      ansiUnescape ('\\' :: 'f' :: rest) = (ansiUnescape rest).map (fun t => Char.ofNat 12 :: t) ∧
      ansiUnescape ('\\' :: 'n' :: rest) = (ansiUnescape rest).map (fun t => '\n' :: t) ∧
      ansiUnescape ('\\' :: 'r' :: rest) = (ansiUnescape rest).map (fun t => Char.ofNat 13 :: t) ∧
      ansiUnescape ('\\' :: 't' :: rest) = (ansiUnescape rest).map (fun t => '\t' :: t) ∧
      ansiUnescape ('\\' :: 'v' :: rest) = (ansiUnescape rest).map (fun t => Char.ofNat 11 :: t) ∧
      ansiUnescape ('\\' :: '\\' :: rest) = (ansiUnescape rest).map (fun t => '\\' :: t) ∧
      ansiUnescape ('\\' :: '\'' :: rest) = (ansiUnescape rest).map (fun t => '\'' :: t) ∧
      ansiUnescape ('\\' :: '"' :: rest) = (ansiUnescape rest).map (fun t => '"' :: t) ∧
      ansiUnescape ('\\' :: '?' :: rest) = (ansiUnescape rest).map (fun t => '?' :: t)) ∧
    (∀ ds rest : Str, 1 ≤ ds.length → ds.length ≤ 3 →
      (∀ c ∈ ds, isOctCh c = true) →
      (ds.length = 3 ∨ ∀ c, rest.head? = some c → isDigitCh c = false) →
      ansiUnescape ('\\' :: (ds ++ rest)) =
        (ansiUnescape rest).map
          (fun t => Char.ofNat (ds.foldl (fun a c => 8 * a + digVal c) 0) :: t)) ∧
    (∀ ds rest : Str, 1 ≤ ds.length → ds.length ≤ 2 →
      (∀ c ∈ ds, isHexCh c = true) →
      (ds.length = 2 ∨ ∀ c, rest.head? = some c → isHexCh c = false) →
      ansiUnescape ('\\' :: 'x' :: (ds ++ rest)) =
        (ansiUnescape rest).map (fun t => Char.ofNat (pyIntBase16 ds) :: t)) ∧
    (∀ ds rest : Str, 1 ≤ ds.length → ds.length ≤ 4 →
      (∀ c ∈ ds, isHexCh c = true) →
      (ds.length = 4 ∨ ∀ c, rest.head? = some c → isHexCh c = false) →
      (pyIntBase16 ds < 55296 ∨ (57344 ≤ pyIntBase16 ds ∧ pyIntBase16 ds < 1114112)) →
      ansiUnescape ('\\' :: 'u' :: (ds ++ rest)) =
        (ansiUnescape rest).map (fun t => Char.ofNat (pyIntBase16 ds) :: t)) ∧
    (∀ ds rest : Str, 1 ≤ ds.length → ds.length ≤ 8 →
      (∀ c ∈ ds, isHexCh c = true) →
      (ds.length = 8 ∨ ∀ c, rest.head? = some c → isHexCh c = false) →
      (pyIntBase16 ds < 55296 ∨ (57344 ≤ pyIntBase16 ds ∧ pyIntBase16 ds < 1114112)) →
      ansiUnescape ('\\' :: 'U' :: (ds ++ rest)) =
        (ansiUnescape rest).map (fun t => Char.ofNat (pyIntBase16 ds) :: t)) ∧
    (∀ (x : Char) (rest : Str), 1 ≤ x.toNat → x.toNat ≤ 127 →
      ansiUnescape ('\\' :: 'c' :: x :: rest) =
        (ansiUnescape rest).map (fun t =>
          (if x = '?' then Char.ofNat 127 else Char.ofNat ((pyUpper x).toNat &&& 31)) :: t)) ∧
    bashParse "declare -A x=([k]=$'\\x41\\x42')".toList = .ok [("k".toList, "AB".toList)] := by
  refine ⟨unquote_ansi, ?_, ansiUnescape_oct, ?_, ?_, ?_, ansiUnescape_ctrl, by decide⟩
  · intro rest
    refine ⟨?_, ?_, ?_, ?_, ?_, ?_, ?_, ?_, ?_, ?_, ?_, ?_, ?_⟩ <;>
      exact ansiUnescape_lit _ _ rest (by
        simp [firstMatch, ansiRules, litRule, octRule, hexRule, ctrlRule, countPfx,
          List.isPrefixOf, isDigitCh])
  · intro ds rest h1 h2 hall hstop
    obtain ⟨d, ds', rfl⟩ : ∃ d ds', ds = d :: ds' := by
      cases ds with
      | nil => simp at h1
      | cons a b => exact ⟨a, b, rfl⟩
    have hcount : countPfx 2 isHexCh ((d :: ds') ++ rest) = ds'.length + 1 := by
      have := countPfx_exact isHexCh 2 (d :: ds') rest h2 hall hstop
      simpa using this
    have hfm := firstMatch_ansi_x ((d :: ds') ++ rest) ds'.length (by simpa using hcount)
    have hlt : pyIntBase16 (d :: ds') < 55296 := by
      have hb := hexFold_lt (d :: ds') 0 hall
      have hp : (16 : Nat) ^ (d :: ds').length ≤ 16 ^ 2 :=
        Nat.pow_le_pow_right (by norm_num) h2
      simp only [Nat.one_mul, pyIntBase16] at hb ⊢
      omega
    refine ansiUnescape_hexgen 'x' 2 (d :: ds') rest (by simpa using hfm) ?_
    simp [pyChr, hlt]
  · intro ds rest h1 h2 hall hstop hv
    obtain ⟨d, ds', rfl⟩ : ∃ d ds', ds = d :: ds' := by
      cases ds with
      | nil => simp at h1
      | cons a b => exact ⟨a, b, rfl⟩
    have hcount : countPfx 4 isHexCh ((d :: ds') ++ rest) = ds'.length + 1 := by
      have := countPfx_exact isHexCh 4 (d :: ds') rest h2 hall hstop
      simpa using this
    have hfm := firstMatch_ansi_u ((d :: ds') ++ rest) ds'.length (by simpa using hcount)
    refine ansiUnescape_hexgen 'u' 4 (d :: ds') rest (by simpa using hfm) ?_
    rcases hv with hv | hv
    · simp [pyChr, hv]
    · simp only [pyChr]
      rw [if_pos (Or.inr hv)]
  · intro ds rest h1 h2 hall hstop hv
    obtain ⟨d, ds', rfl⟩ : ∃ d ds', ds = d :: ds' := by
      cases ds with
      | nil => simp at h1
      | cons a b => exact ⟨a, b, rfl⟩
    have hcount : countPfx 8 isHexCh ((d :: ds') ++ rest) = ds'.length + 1 := by
      have := countPfx_exact isHexCh 8 (d :: ds') rest h2 hall hstop
      simpa using this
    have hfm := firstMatch_ansi_UU ((d :: ds') ++ rest) ds'.length (by simpa using hcount)
    refine ansiUnescape_hexgen 'U' 8 (d :: ds') rest (by simpa using hfm) ?_
    rcases hv with hv | hv
    · simp [pyChr, hv]
    · simp only [pyChr]
      rw [if_pos (Or.inr hv)]

/-- Witness for C2: the octal, hex and control escapes at concrete
inputs, through the quantified parts of the table theorem. -/
theorem C2_ansi_escape_table_witness :
    ansiUnescape "\\101".toList = .ok ['A'] ∧
    ansiUnescape "\\x41".toList = .ok ['A'] ∧
    ansiUnescape "\\cj".toList = .ok ['\n'] := by
  refine ⟨?_, ?_, ?_⟩
  · have h := C2_ansi_escape_table.2.2.1 ['1', '0', '1'] [] (by decide) (by decide)
      (by decide) (Or.inl (by decide))
    rw [show "\\101".toList = '\\' :: (['1', '0', '1'] ++ []) from by decide, h]
    decide
  · have h := C2_ansi_escape_table.2.2.2.1 ['4', '1'] [] (by decide) (by decide)
      (by decide) (Or.inl (by decide))
    rw [show "\\x41".toList = '\\' :: 'x' :: (['4', '1'] ++ []) from by decide, h]
    decide
  · have h := C2_ansi_escape_table.2.2.2.2.2.2.1 'j' [] (by decide) (by decide)
    rw [show "\\cj".toList = '\\' :: 'c' :: 'j' :: [] from by decide, h]
    decide

/-! ## Evaluation lemmas for the micro lexer -/

theorem char_ne_of_toNat {c x : Char} (h : c.toNat ≠ x.toNat) : c ≠ x :=
  fun he => h (by rw [he])

theorem isWordCh_ranges {c : Char} (h : isWordCh c = true) :
    (97 ≤ c.toNat ∧ c.toNat ≤ 122) ∨ (65 ≤ c.toNat ∧ c.toNat ≤ 90) ∨
    (48 ≤ c.toNat ∧ c.toNat ≤ 57) ∨ c.toNat = 95 := by
  simp only [isWordCh, Bool.or_eq_true, Bool.and_eq_true, decide_eq_true_eq] at h
  rcases h with ((h | h) | h) | h
  · exact Or.inl h
  · exact Or.inr (Or.inl h)
  · exact Or.inr (Or.inr (Or.inl h))
  · subst h; exact Or.inr (Or.inr (Or.inr (by decide)))

theorem isWordCh_stop {c : Char} (h : isWordCh c = true) :
    isWs c = false ∧ ¬(c = '#') ∧ isQuoteCh c = false ∧ ¬(c = '$') := by
  have hr := isWordCh_ranges h
  have h1 : c ≠ ' ' := char_ne_of_toNat (by rw [show (' ' : Char).toNat = 32 from rfl]; omega)
  have h2 : c ≠ '\t' := char_ne_of_toNat (by rw [show ('\t' : Char).toNat = 9 from rfl]; omega)
  have h3 : c ≠ '\r' := char_ne_of_toNat (by rw [show ('\r' : Char).toNat = 13 from rfl]; omega)
  have h4 : c ≠ '\n' := char_ne_of_toNat (by rw [show ('\n' : Char).toNat = 10 from rfl]; omega)
  have h5 : c ≠ '#' := char_ne_of_toNat (by rw [show ('#' : Char).toNat = 35 from rfl]; omega)
  have h6 : c ≠ '\'' := char_ne_of_toNat (by rw [show ('\'' : Char).toNat = 39 from rfl]; omega)
  have h7 : c ≠ '"' := char_ne_of_toNat (by rw [show ('"' : Char).toNat = 34 from rfl]; omega)
  have h8 : c ≠ '$' := char_ne_of_toNat (by rw [show ('$' : Char).toNat = 36 from rfl]; omega)
  simp [isWs, isQuoteCh, h1, h2, h3, h4, h5, h6, h7, h8]

theorem lexRun_word_app (w : Str) : ∀ (tok s : Str), (∀ x ∈ w, isWordCh x = true) →
    lexRun (.word tok) (w ++ s) = lexRun (.word (tok ++ w)) s := by
  induction w with
  | nil => intro tok s _; simp
  | cons c w' ih =>
    intro tok s hall
    have hc := hall c (List.mem_cons_self _ _)
    have hst := isWordCh_stop hc
    simp only [List.cons_append, lexRun, hst.1, Bool.false_eq_true, if_false,
      hst.2.1, if_neg hst.2.1, hc, Bool.true_or, if_true, List.append_eq]
    rw [ih (tok ++ [c]) s (fun x hx => hall x (List.mem_cons_of_mem _ hx))]
    simp

theorem readToken_word (w s : Str) (hw : w ≠ []) (hall : ∀ x ∈ w, isWordCh x = true) :
    readToken (w ++ s) = lexRun (.word w) s := by
  cases w with
  | nil => exact absurd rfl hw
  | cons c w' =>
    have hc := hall c (List.mem_cons_self _ _)
    have hst := isWordCh_stop hc
    simp only [readToken, List.cons_append, lexRun, hst.1, Bool.false_eq_true, if_false,
      hst.2.1, if_neg hst.2.1, hc, if_true, List.append_eq]
    rw [lexRun_word_app w' [c] s (fun x hx => hall x (List.mem_cons_of_mem _ hx))]
    simp

theorem lexRun_word_ws (tok : Str) (c : Char) (r : Str) (h : isWs c = true) :
    lexRun (.word tok) (c :: r) = .ok (tok, r) := by
  simp [lexRun, h]

theorem lexRun_word_push (tok : Str) (c : Char) (r : Str) (h1 : isWs c = false)
    (h2 : ¬ c = '#') (h3 : isWordCh c = false) (h4 : isQuoteCh c = false) :
    lexRun (.word tok) (c :: r) = .ok (tok, c :: r) := by
  simp [lexRun, h1, h2, h3, h4]

theorem lexRun_quot_app (body : Str) : ∀ (q : Char) (tok r : Str), q ∉ body →
    lexRun (.quot q tok) (body ++ q :: r) = .ok (tok ++ body ++ [q], r) := by
  induction body with
  | nil => intro q tok r _; simp [lexRun]
  | cons c b ih =>
    intro q tok r h
    have hne : ¬ c = q := fun he => h (he ▸ List.mem_cons_self _ _)
    simp only [List.cons_append, lexRun, if_neg hne, List.append_eq]
    rw [ih q (tok ++ [c]) r (fun hq => h (List.mem_cons_of_mem _ hq))]
    simp

theorem readToken_squote (body r : Str) (h : '\'' ∉ body) :
    readToken ('\'' :: (body ++ '\'' :: r)) = .ok ('\'' :: body ++ ['\''], r) := by
  simp only [readToken, lexRun, show isWs '\'' = false from rfl, Bool.false_eq_true, if_false,
    show ('\'' = '#') = False from by simp, show isWordCh '\'' = false from rfl,
    show isQuoteCh '\'' = true from rfl, if_true]
  rw [lexRun_quot_app body '\'' ['\''] r h]
  simp

theorem readToken_punct (c : Char) (r : Str) (h1 : isWs c = false) (h2 : ¬ c = '#')
    (h3 : isWordCh c = false) (h4 : isQuoteCh c = false) :
    readToken (c :: r) = .ok ([c], r) := by
  simp [readToken, lexRun, h1, h2, h3, h4]

theorem unquote_bare_word (w : Str) (hw : w ≠ []) (hall : ∀ x ∈ w, isWordCh x = true) :
    unquote w = .ok w := by
  cases w with
  | nil => exact absurd rfl hw
  | cons c w' =>
    have hst := isWordCh_stop (hall c (List.mem_cons_self _ _))
    have hq : ¬(c = '\'') ∧ ¬(c = '"') := by
      have hqq := hst.2.2.1
      simp only [isQuoteCh, Bool.or_eq_false_iff, decide_eq_false_iff_not] at hqq
      exact hqq
    rw [unquote.eq_2]
    rw [if_neg (fun hcon => hq.1 hcon.1)]
    rw [if_neg (fun hcon => hq.2 hcon.1)]
    rw [if_neg (fun hcon => by
      have hpre := hcon.1
      simp only [List.isPrefixOf, Bool.and_eq_true, beq_iff_eq] at hpre
      exact hst.2.2.2 hpre.1.symm)]

/-! ## Round-trip machinery for the bash codec -/

/-- Keys that `unparse` emits bare and the lexer reads back as one word
token: nonempty strings of `shlex` word characters. -/
def validKey (k : Str) : Prop := k ≠ [] ∧ ∀ c ∈ k, isWordCh c = true

/-- Values whose `shlex.quote` image is read back losslessly: a
nonempty word, the empty string, or a string with some unsafe character
(so that it gets single-quoted) and no embedded single quote. -/
def validVal (v : Str) : Prop :=
  (v ≠ [] ∧ ∀ c ∈ v, isWordCh c = true) ∨ v = [] ∨
    ((∃ c ∈ v, isSafeCh c = false) ∧ '\'' ∉ v)

instance (k : Str) : Decidable (validKey k) := by unfold validKey; infer_instance

instance (v : Str) : Decidable (validVal v) := by unfold validVal; infer_instance

theorem isSafeCh_of_isWordCh {c : Char} (h : isWordCh c = true) : isSafeCh c = true := by
  simp [isSafeCh, h]

theorem shlexQuote_word (v : Str) (hne : v ≠ []) (hall : ∀ c ∈ v, isWordCh c = true) :
    shlexQuote v = v := by
  rw [shlexQuote, if_neg hne, if_pos]
  exact List.all_eq_true.mpr (fun c hc => isSafeCh_of_isWordCh (hall c hc))

theorem flatMap_no_quote (v : Str) (hq : '\'' ∉ v) :
    v.flatMap (fun c => if c = '\'' then ['\'', '"', '\'', '"', '\''] else [c]) = v := by
  induction v with
  | nil => rfl
  | cons a b ih =>
    have ha : ¬ a = '\'' := fun he => hq (he ▸ List.mem_cons_self _ _)
    simp only [List.flatMap_cons, if_neg ha, List.singleton_append]
    rw [ih (fun hmem => hq (List.mem_cons_of_mem _ hmem))]

theorem shlexQuote_quoted (v : Str) (hnsafe : ∃ c ∈ v, isSafeCh c = false)
    (hq : '\'' ∉ v) : shlexQuote v = '\'' :: (v ++ ['\'']) := by
  obtain ⟨c₀, hc₀, hc₀f⟩ := hnsafe
  have hne : v ≠ [] := fun he => by rw [he] at hc₀; exact absurd hc₀ (List.not_mem_nil _)
  have hnall : ¬ v.all isSafeCh = true := fun hall => by
    rw [List.all_eq_true] at hall
    rw [hall c₀ hc₀] at hc₀f
    exact Bool.true_eq_false.mp hc₀f
  rw [shlexQuote, if_neg hne, if_neg hnall, flatMap_no_quote v hq]
  simp

theorem unquote_squote (v : Str) :
    unquote ('\'' :: (v ++ ['\''])) = .ok v := by
  have hlast : ('\'' :: (v ++ ['\''])).getLast? = some '\'' := by
    rw [show ('\'' :: (v ++ ['\'']) : Str) = ('\'' :: v) ++ ['\''] from by simp]
    exact List.getLast?_concat _
  rw [unquote.eq_2, if_pos ⟨rfl, hlast⟩]
  simp

theorem except_bind_ok {ε α β : Type} (a : α) (f : α → Except ε β) :
    (Except.ok a : Except ε α) >>= f = f a := rfl

theorem except_bind_err {ε α β : Type} (e : ε) (f : α → Except ε β) :
    (Except.error e : Except ε α) >>= f = Except.error e := rfl

theorem except_pure_eq {ε α : Type} (a : α) : (pure a : Except ε α) = Except.ok a := rfl

theorem except_map_ok {ε α β : Type} (f : α → β) (a : α) :
    f <$> (Except.ok a : Except ε α) = Except.ok (f a) := rfl

theorem except_map_err {ε α β : Type} (f : α → β) (e : ε) :
    f <$> (Except.error e : Except ε α) = Except.error e := rfl

theorem lexT_of {s : Str} {p : Str × Str} (h : readToken s = .ok p) :
    lexT s = .ok p := by
  simp [lexT, h, Except.mapError]

theorem lexItem_of {s t s' : Str} (h : readToken s = .ok (t, s')) (hne : ¬ t = ['$']) :
    lexItem s = .ok (t, s') := by
  simp [lexItem, lexT, h, hne, Except.mapError, except_bind_ok, except_pure_eq]

theorem word_ne_dollar {w : Str} (hall : ∀ c ∈ w, isWordCh c = true) : ¬ w = ['$'] :=
  fun he => absurd (hall '$' (he ▸ List.mem_cons_self _ _)) (by decide)

/-- Lexing and unquoting the `shlex.quote` image of a valid value, when
it is followed by a character the lexer treats as a pushback delimiter
(such as the closing parenthesis). -/
theorem lexItem_val_push (v : Str) (hv : validVal v) (c : Char) (r : Str)
    (h1 : isWs c = false) (h2 : ¬ c = '#') (h3 : isWordCh c = false)
    (h4 : isQuoteCh c = false) :
    ∃ vt, lexItem (shlexQuote v ++ c :: r) = .ok (vt, c :: r) ∧ unquote vt = .ok v := by
  rcases hv with ⟨hne, hall⟩ | hv | ⟨hnsafe, hq⟩
  · refine ⟨v, ?_, unquote_bare_word v hne hall⟩
    refine lexItem_of ?_ (word_ne_dollar hall)
    rw [shlexQuote_word v hne hall, readToken_word v (c :: r) hne hall]
    exact lexRun_word_push v c r h1 h2 h3 h4
  · subst hv
    refine ⟨['\'', '\''], ?_, by decide⟩
    refine lexItem_of ?_ (by decide)
    rw [show shlexQuote [] ++ c :: r = '\'' :: (([] : Str) ++ '\'' :: (c :: r)) from rfl]
    rw [readToken_squote [] (c :: r) (by simp)]
    rfl
  · refine ⟨'\'' :: v ++ ['\''], ?_, by simpa using unquote_squote v⟩
    refine lexItem_of ?_ (by simp)
    rw [shlexQuote_quoted v hnsafe hq]
    rw [show ('\'' :: (v ++ ['\''])) ++ c :: r = '\'' :: (v ++ '\'' :: (c :: r)) from by simp]
    exact readToken_squote v (c :: r) hq

/-- Lexing and unquoting the `shlex.quote` image of a valid value, when
it is followed by the single-space entry separator; the lexer may or may
not consume the space depending on the quoting style. -/
theorem lexItem_val_space (v : Str) (hv : validVal v) (r : Str) :
    ∃ vt s₅, lexItem (shlexQuote v ++ ' ' :: r) = .ok (vt, s₅) ∧ unquote vt = .ok v ∧
      (s₅ = r ∨ s₅ = ' ' :: r) := by
  rcases hv with ⟨hne, hall⟩ | hv | ⟨hnsafe, hq⟩
  · refine ⟨v, r, ?_, unquote_bare_word v hne hall, Or.inl rfl⟩
    refine lexItem_of ?_ (word_ne_dollar hall)
    rw [shlexQuote_word v hne hall, readToken_word v (' ' :: r) hne hall]
    exact lexRun_word_ws v ' ' r (by decide)
  · subst hv
    refine ⟨['\'', '\''], ' ' :: r, ?_, by decide, Or.inr rfl⟩
    refine lexItem_of ?_ (by decide)
    rw [show shlexQuote [] ++ ' ' :: r = '\'' :: (([] : Str) ++ '\'' :: (' ' :: r)) from rfl]
    rw [readToken_squote [] (' ' :: r) (by simp)]
    rfl
  · refine ⟨'\'' :: v ++ ['\''], ' ' :: r, ?_, by simpa using unquote_squote v, Or.inr rfl⟩
    refine lexItem_of ?_ (by simp)
    rw [shlexQuote_quoted v hnsafe hq]
    rw [show ('\'' :: (v ++ ['\''])) ++ ' ' :: r = '\'' :: (v ++ '\'' :: (' ' :: r)) from by simp]
    exact readToken_squote v (' ' :: r) hq

theorem parseLoop_cons_ws (line : Str) (f : Nat) (d : Dict) (c : Char) (s : Str)
    (hc : isWs c = true) :
    parseLoop line (f + 1) d (c :: s) = parseLoop line (f + 1) d s := by
  simp only [parseLoop]
  rw [show lexT (c :: s) = lexT s from by simp [lexT, readToken, lexRun, hc]]

theorem bashUnparse_single (p : Str × Str) :
    bashUnparse [p] = '[' :: p.1 ++ [']', '='] ++ shlexQuote p.2 := by
  simp [bashUnparse, List.intercalate]

theorem bashUnparse_cons₂ (p q : Str × Str) (t : Dict) :
    bashUnparse (p :: q :: t) =
      ('[' :: p.1 ++ [']', '='] ++ shlexQuote p.2) ++ ' ' :: bashUnparse (q :: t) := by
  simp only [bashUnparse, List.map_cons]
  rw [intercalate_cons₂]
  simp

theorem parseLoop_unparse (line : Str) :
    ∀ (R : Dict) (f : Nat) (d : Dict) (tail : Str),
      (∀ p ∈ R, validKey p.1 ∧ validVal p.2) →
      (bashUnparse R ++ ')' :: tail).length ≤ f →
      parseLoop line f d (bashUnparse R ++ ')' :: tail) =
        .ok (R.foldl (fun acc p => dictInsert acc p.1 p.2) d, tail) := by
  intro R
  induction R with
  | nil =>
    intro f d tail _ hlen
    obtain ⟨g, rfl⟩ : ∃ g, f = g + 1 := by
      refine ⟨f - 1, ?_⟩
      simp [bashUnparse, List.intercalate] at hlen
      omega
    rw [show bashUnparse [] = ([] : Str) from rfl]
    simp only [List.nil_append]
    simp only [parseLoop]
    rw [lexT_of (readToken_punct ')' tail (by decide) (by decide) (by decide) (by decide))]
    simp [except_bind_ok, except_pure_eq]
  | cons p R' ih =>
    obtain ⟨k, v⟩ := p
    intro f d tail hvalid hlen
    obtain ⟨hk1, hk2⟩ := (hvalid (k, v) (List.mem_cons_self _ _)).1
    have hv := (hvalid (k, v) (List.mem_cons_self _ _)).2
    have hvalid' : ∀ q ∈ R', validKey q.1 ∧ validVal q.2 :=
      fun q hq => hvalid q (List.mem_cons_of_mem _ hq)
    obtain ⟨g, rfl⟩ : ∃ g, f = g + 1 := by
      refine ⟨f - 1, ?_⟩
      have : 1 ≤ (bashUnparse ((k, v) :: R') ++ ')' :: tail).length := by
        simp only [List.length_append, List.length_cons]
        omega
      omega
    cases R' with
    | nil =>
      rw [bashUnparse_single]
      rw [show (('[' :: k ++ [']', '='] ++ shlexQuote v) ++ ')' :: tail : Str)
          = '[' :: (k ++ ']' :: '=' :: (shlexQuote v ++ ')' :: tail)) from by simp]
      obtain ⟨vt, hlex, hunq⟩ :=
        lexItem_val_push v hv ')' tail (by decide) (by decide) (by decide) (by decide)
      simp only [parseLoop]
      rw [lexT_of (readToken_punct '[' _ (by decide) (by decide) (by decide) (by decide))]
      simp only [except_bind_ok]
      rw [if_neg (by decide), if_neg (by decide)]
      rw [show expectTok line ['['] ['['] = .ok () from by simp [expectTok]]
      simp only [except_bind_ok]
      rw [lexItem_of (by
          rw [readToken_word k _ hk1 hk2]
          exact lexRun_word_push k ']' _ (by decide) (by decide) (by decide) (by decide))
        (word_ne_dollar hk2)]
      simp only [except_bind_ok]
      rw [show (unquote k).mapError unqToParse = .ok k from by
        rw [unquote_bare_word k hk1 hk2]; rfl]
      simp only [except_bind_ok]
      rw [lexT_of (readToken_punct ']' _ (by decide) (by decide) (by decide) (by decide))]
      simp only [except_bind_ok]
      rw [show expectTok line [']'] [']'] = .ok () from by simp [expectTok]]
      simp only [except_bind_ok]
      rw [lexT_of (readToken_punct '=' _ (by decide) (by decide) (by decide) (by decide))]
      simp only [except_bind_ok]
      rw [show expectTok line ['='] ['='] = .ok () from by simp [expectTok]]
      simp only [except_bind_ok]
      rw [hlex]
      simp only [except_bind_ok]
      rw [show (unquote vt).mapError unqToParse = .ok v from by rw [hunq]; rfl]
      simp only [except_bind_ok]
      have hih := ih g (dictInsert d k v) tail (by intro q hq; cases hq) (by
        rw [show bashUnparse [] = ([] : Str) from rfl]
        have hB : 1 ≤ (bashUnparse [(k, v)]).length := by
          rw [bashUnparse_single]
          simp only [List.length_append, List.length_cons]
          omega
        simp only [List.length_append, List.length_cons, List.length_nil] at hlen ⊢
        omega)
      rw [show bashUnparse [] = ([] : Str) from rfl] at hih
      simp only [List.nil_append] at hih
      rw [hih]
      simp
    | cons q t =>
      rw [bashUnparse_cons₂]
      rw [show ((('[' :: k ++ [']', '='] ++ shlexQuote v) ++ ' ' :: bashUnparse (q :: t))
            ++ ')' :: tail : Str)
          = '[' :: (k ++ ']' :: '=' :: (shlexQuote v ++ ' ' ::
              (bashUnparse (q :: t) ++ ')' :: tail))) from by simp]
      obtain ⟨vt, s₅, hlex, hunq, hs₅⟩ :=
        lexItem_val_space v hv (bashUnparse (q :: t) ++ ')' :: tail)
      simp only [parseLoop]
      rw [lexT_of (readToken_punct '[' _ (by decide) (by decide) (by decide) (by decide))]
      simp only [except_bind_ok]
      rw [if_neg (by decide), if_neg (by decide)]
      rw [show expectTok line ['['] ['['] = .ok () from by simp [expectTok]]
      simp only [except_bind_ok]
      rw [lexItem_of (by
          rw [readToken_word k _ hk1 hk2]
          exact lexRun_word_push k ']' _ (by decide) (by decide) (by decide) (by decide))
        (word_ne_dollar hk2)]
      simp only [except_bind_ok]
      rw [show (unquote k).mapError unqToParse = .ok k from by
        rw [unquote_bare_word k hk1 hk2]; rfl]
      simp only [except_bind_ok]
      rw [lexT_of (readToken_punct ']' _ (by decide) (by decide) (by decide) (by decide))]
      simp only [except_bind_ok]
      rw [show expectTok line [']'] [']'] = .ok () from by simp [expectTok]]
      simp only [except_bind_ok]
      rw [lexT_of (readToken_punct '=' _ (by decide) (by decide) (by decide) (by decide))]
      simp only [except_bind_ok]
      rw [show expectTok line ['='] ['='] = .ok () from by simp [expectTok]]
      simp only [except_bind_ok]
      rw [hlex]
      simp only [except_bind_ok]
      rw [show (unquote vt).mapError unqToParse = .ok v from by rw [hunq]; rfl]
      simp only [except_bind_ok]
      have hbound : (bashUnparse (q :: t) ++ ')' :: tail).length ≤ g := by
        have hB : (bashUnparse (q :: t)).length + 2 ≤ (bashUnparse ((k, v) :: q :: t)).length := by
          rw [bashUnparse_cons₂]
          simp only [List.length_append, List.length_cons]
          omega
        simp only [List.length_append, List.length_cons] at hlen ⊢
        omega
      rcases hs₅ with rfl | rfl
      · rw [ih g (dictInsert d k v) tail hvalid' hbound]
        simp
      · obtain ⟨g', rfl⟩ : ∃ g', g = g' + 1 := by
          refine ⟨g - 1, ?_⟩
          have : 1 ≤ (bashUnparse (q :: t) ++ ')' :: tail).length := by
            simp only [List.length_append, List.length_cons]
            omega
          omega
        rw [parseLoop_cons_ws line g' (dictInsert d k v) ' ' _ (by decide)]
        rw [ih (g' + 1) (dictInsert d k v) tail hvalid' hbound]
        simp
theorem bashParseCore_header (s₆ : Str) :
    bashParseCore ("declare -A x=(".toList ++ s₆) =
      parseLoop ("declare -A x=(".toList ++ s₆)
        (("declare -A x=(".toList ++ s₆).length + 1) [] s₆ := by
  simp only [bashParseCore]
  rw [show ("declare -A x=(".toList ++ s₆ : Str)
      = "declare".toList ++ (' ' :: ('-' :: 'A' :: ' ' :: 'x' :: '=' :: '(' :: s₆)) from rfl]
  rw [lexT_of (by
    rw [readToken_word "declare".toList _ (by decide) (by decide)]
    exact lexRun_word_ws _ ' ' _ (by decide))]
  simp only [except_bind_ok]
  rw [show expectIn ("declare".toList ++ (' ' :: ('-' :: 'A' :: ' ' :: 'x' :: '=' :: '(' :: s₆)))
      "declare".toList ["declare".toList, "typeset".toList] = .ok () from by simp [expectIn]]
  simp only [except_bind_ok]
  rw [lexT_of (readToken_punct '-' _ (by decide) (by decide) (by decide) (by decide))]
  simp only [except_bind_ok]
  rw [show ∀ l : Str, expectTok l ['-'] ['-'] = .ok () from fun l => by simp [expectTok]]
  simp only [except_bind_ok]
  rw [show ('A' :: ' ' :: 'x' :: '=' :: '(' :: s₆ : Str)
      = ['A'] ++ (' ' :: 'x' :: '=' :: '(' :: s₆) from rfl]
  rw [lexT_of (by
    rw [readToken_word ['A'] _ (by decide) (by decide)]
    exact lexRun_word_ws _ ' ' _ (by decide))]
  simp only [except_bind_ok]
  rw [show ∀ l : Str, expectTok l ['A'] ['A'] = .ok () from fun l => by simp [expectTok]]
  simp only [except_bind_ok]
  rw [show ('x' :: '=' :: '(' :: s₆ : Str) = ['x'] ++ ('=' :: '(' :: s₆) from rfl]
  rw [lexT_of (by
    rw [readToken_word ['x'] _ (by decide) (by decide)]
    exact lexRun_word_push ['x'] '=' _ (by decide) (by decide) (by decide) (by decide))]
  simp only [except_bind_ok]
  rw [lexT_of (readToken_punct '=' _ (by decide) (by decide) (by decide) (by decide))]
  simp only [except_bind_ok]
  rw [show ∀ l : Str, expectTok l ['='] ['='] = .ok () from fun l => by simp [expectTok]]
  simp only [except_bind_ok]
  rw [lexT_of (readToken_punct '(' _ (by decide) (by decide) (by decide) (by decide))]
  simp only [except_bind_ok]
  rw [show ∀ l : Str, expectTok l ['('] ['('] = .ok () from fun l => by simp [expectTok]]
  simp only [except_bind_ok]

theorem foldl_dictInsert_fresh :
    ∀ (R d : Dict), (R.map Prod.fst).Nodup →
      (∀ p ∈ R, ∀ q ∈ d, ¬ q.1 = p.1) →
      R.foldl (fun acc p => dictInsert acc p.1 p.2) d = d ++ R := by
  intro R
  induction R with
  | nil => intro d _ _; simp
  | cons p R' ih =>
    intro d hnodup hfresh
    obtain ⟨k, v⟩ := p
    have hins : dictInsert d k v = d ++ [(k, v)] := by
      rw [dictInsert, if_neg]
      simp only [List.any_eq_true, decide_eq_true_eq, not_exists]
      intro q
      intro hcon
      exact hfresh (k, v) (List.mem_cons_self _ _) q hcon.1 hcon.2
    rw [List.foldl_cons, hins, ih (d ++ [(k, v)])]
    · simp
    · exact (List.nodup_cons.mp (by simpa using hnodup)).2
    · intro p' hp' q hq
      rcases List.mem_append.mp hq with hq | hq
      · exact hfresh p' (List.mem_cons_of_mem _ hp') q hq
      · have hqk : q = (k, v) := by simpa using hq
        subst hqk
        have hknotin : k ∉ R'.map Prod.fst :=
          (List.nodup_cons.mp (by simpa using hnodup)).1
        intro he
        apply hknotin
        rw [show k = p'.1 from he]
        exact List.mem_map_of_mem Prod.fst hp'

/-! ## C1: the bash round trip -/

/-- C1 as stated is false: the record k -> a'b (a value containing a
single quote) does not survive the round trip; `shlex.quote` splices the
quote as `'"'"'` and the non-POSIX lexer splits it into several tokens,
so parse fails. -/
theorem C1_bash_roundtrip_counterexample :
    ¬ bashParse ("declare -A x=(".toList
        ++ bashUnparse [("k".toList, "a'b".toList)] ++ [')'])
      = .ok [("k".toList, "a'b".toList)] := by decide

/-- C1 (amended): for records whose keys are nonempty words over the
lexer's word characters and whose values are nonempty words, empty, or
contain an unsafe character but no single quote, parsing
declare -A x=( unparse(R) ) recovers R exactly; unparse emits only the
inner [key]=value payload with shlex-quoted values joined by single
spaces. -/
theorem C1_bash_roundtrip :
    ∀ R : Dict, (∀ p ∈ R, validKey p.1 ∧ validVal p.2) → (R.map Prod.fst).Nodup →
      bashParse ("declare -A x=(".toList ++ bashUnparse R ++ [')']) = .ok R := by
  intro R hvalid hnodup
  rw [show ("declare -A x=(".toList ++ bashUnparse R ++ [')'] : Str)
      = "declare -A x=(".toList ++ (bashUnparse R ++ ')' :: []) from by simp]
  simp only [bashParse]
  rw [bashParseCore_header]
  rw [parseLoop_unparse _ R _ [] [] hvalid (by
    simp only [List.length_append, List.length_cons]
    omega)]
  rw [foldl_dictInsert_fresh R [] hnodup (by simp)]
  rfl

/-- Witness for C1: a two-entry record with a word value and a quoted
value round-trips. -/
theorem C1_bash_roundtrip_witness :
    bashParse ("declare -A x=(".toList
        ++ bashUnparse [("k1".toList, "v1".toList), ("k2".toList, "a b!".toList)] ++ [')'])
      = .ok [("k1".toList, "v1".toList), ("k2".toList, "a b!".toList)] :=
  C1_bash_roundtrip _ (by decide) (by decide)

/-! ## C7: single quotes are literal -/

theorem parseLoop_single_squote (line : Str) (g : Nat) (d : Dict) (v tail : Str)
    (hq : '\'' ∉ v) :
    parseLoop line (g + 1 + 1) d
        ('[' :: 'k' :: ']' :: '=' :: ('\'' :: (v ++ '\'' :: ')' :: tail)))
      = .ok (dictInsert d ['k'] v, tail) := by
  simp only [parseLoop]
  rw [lexT_of (readToken_punct '[' _ (by decide) (by decide) (by decide) (by decide))]
  simp only [except_bind_ok]
  rw [if_neg (by decide), if_neg (by decide)]
  rw [show expectTok line ['['] ['['] = .ok () from by simp [expectTok]]
  simp only [except_bind_ok]
  rw [show ('k' :: ']' :: '=' :: ('\'' :: (v ++ '\'' :: ')' :: tail)) : Str)
      = ['k'] ++ (']' :: '=' :: ('\'' :: (v ++ '\'' :: ')' :: tail))) from rfl]
  rw [lexItem_of (by
      rw [readToken_word ['k'] _ (by decide) (by decide)]
      exact lexRun_word_push ['k'] ']' _ (by decide) (by decide) (by decide) (by decide))
    (by decide)]
  simp only [except_bind_ok]
  rw [show (unquote ['k']).mapError unqToParse = .ok ['k'] from by decide]
  simp only [except_bind_ok]
  rw [lexT_of (readToken_punct ']' _ (by decide) (by decide) (by decide) (by decide))]
  simp only [except_bind_ok]
  rw [show expectTok line [']'] [']'] = .ok () from by simp [expectTok]]
  simp only [except_bind_ok]
  rw [lexT_of (readToken_punct '=' _ (by decide) (by decide) (by decide) (by decide))]
  simp only [except_bind_ok]
  rw [show expectTok line ['='] ['='] = .ok () from by simp [expectTok]]
  simp only [except_bind_ok]
  rw [lexItem_of (readToken_squote v (')' :: tail) hq) (by simp)]
  simp only [except_bind_ok]
  rw [show (unquote ('\'' :: v ++ ['\''])).mapError unqToParse = .ok v from by
    rw [show ('\'' :: v ++ ['\''] : Str) = '\'' :: (v ++ ['\'']) from by simp]
    rw [unquote_squote v]
    rfl]
  simp only [except_bind_ok]
  rw [lexT_of (readToken_punct ')' tail (by decide) (by decide) (by decide) (by decide))]
  simp [except_bind_ok, except_pure_eq]

/-- C7: a single-quoted token is returned with its inner text unchanged,
with no escape processing of any kind: for every value with no embedded
single quote, parse of declare -A x=([k]='value') yields exactly that
value. -/
theorem C7_single_quote_literal :
    ∀ v : Str, '\'' ∉ v →
      bashParse ("declare -A x=([k]='".toList ++ v ++ "')".toList)
        = .ok [("k".toList, v)] := by
  intro v hq
  rw [show ("declare -A x=([k]='".toList ++ v ++ "')".toList : Str)
      = "declare -A x=(".toList
        ++ ('[' :: 'k' :: ']' :: '=' :: ('\'' :: (v ++ '\'' :: ')' :: []))) from by simp]
  simp only [bashParse]
  rw [bashParseCore_header]
  obtain ⟨G, hG⟩ : ∃ G,
      ("declare -A x=(".toList
        ++ ('[' :: 'k' :: ']' :: '=' :: ('\'' :: (v ++ '\'' :: ')' :: [])))).length + 1
      = G + 1 + 1 := by
    refine ⟨("declare -A x=(".toList
      ++ ('[' :: 'k' :: ']' :: '=' :: ('\'' :: (v ++ '\'' :: ')' :: [])))).length - 1, ?_⟩
    simp only [List.length_append, List.length_cons]
    omega
  rw [hG, parseLoop_single_squote _ G [] v [] hq]
  rw [show dictInsert [] ['k'] v = [(['k'], v)] from rfl]
  rfl

/-- Witness for C7: the spec's concrete example, a value containing a
backslash-n that stays the literal two characters. -/
theorem C7_single_quote_literal_witness :
    bashParse "declare -A x=([k]='a\\nb')".toList
      = .ok [("k".toList, "a\\nb".toList)] := by
  have h := C7_single_quote_literal "a\\nb".toList (by decide)
  rw [show "declare -A x=([k]='a\\nb')".toList
      = "declare -A x=([k]='".toList ++ "a\\nb".toList ++ "')".toList from rfl]
  exact h

/-! ## C4: the simple round trip -/

theorem fields_length : ∀ R : Dict, (R.flatMap fun p => [p.1, p.2]).length = 2 * R.length := by
  intro R
  induction R with
  | nil => rfl
  | cons p R' ih => simp only [List.flatMap_cons, List.length_append, List.length_cons,
      List.length_nil, ih, List.length_cons]; omega

theorem evens_cons (b : Str) (l : List Str) : evens (b :: l) = b :: odds l := by
  cases l <;> simp [evens, odds]

theorem evens_fields : ∀ R : Dict, evens (R.flatMap fun p => [p.1, p.2]) = R.map Prod.fst := by
  intro R
  induction R with
  | nil => rfl
  | cons p R' ih =>
    simp only [List.flatMap_cons, List.cons_append, List.nil_append, List.map_cons]
    rw [show (p.1 :: p.2 :: (R'.flatMap fun p => [p.1, p.2]) : List Str)
        = p.1 :: p.2 :: (R'.flatMap fun p => [p.1, p.2]) from rfl]
    rw [show evens (p.1 :: p.2 :: (R'.flatMap fun p => [p.1, p.2])) =
        p.1 :: evens (R'.flatMap fun p => [p.1, p.2]) from rfl]
    rw [ih]

theorem odds_fields : ∀ R : Dict, odds (R.flatMap fun p => [p.1, p.2]) = R.map Prod.snd := by
  intro R
  induction R with
  | nil => rfl
  | cons p R' ih =>
    simp only [List.flatMap_cons, List.cons_append, List.nil_append, List.map_cons]
    rw [show odds (p.1 :: p.2 :: (R'.flatMap fun p => [p.1, p.2]))
        = evens (p.2 :: (R'.flatMap fun p => [p.1, p.2])) from rfl]
    rw [evens_cons, ih]

theorem zip_fst_snd : ∀ R : Dict, (R.map Prod.fst).zip (R.map Prod.snd) = R := by
  intro R
  induction R with
  | nil => rfl
  | cons p R' ih => simp [ih]

theorem simpleUnparse_fields (R : Dict) (hnl : ∀ p ∈ R, '\n' ∉ p.2) :
    simpleUnparse R = List.intercalate ['\t'] (R.flatMap fun p => [p.1, p.2]) := by
  have hent : R.map (fun p => p.1 ++ '\t' :: p.2.filter (fun c => c ≠ '\n'))
      = R.map (fun p => p.1 ++ '\t' :: p.2) := by
    apply List.map_congr_left
    intro p hp
    congr 1
    congr 1
    refine List.filter_eq_self.mpr (fun c hc => ?_)
    simp only [ne_eq, decide_eq_true_eq]
    intro he
    exact hnl p hp (he ▸ hc)
  rw [simpleUnparse, hent]
  clear hent hnl
  induction R with
  | nil => rfl
  | cons p R' ih =>
    cases R' with
    | nil => simp [List.intercalate]
    | cons q r =>
      simp only [List.map_cons, List.flatMap_cons, List.cons_append, List.nil_append] at ih ⊢
      rw [intercalate_cons₂, ih]
      simp [intercalate_cons₂, List.append_assoc]

/-- C4 as stated is false: the empty record has no TAB or newline in any
value, yet unparse of it is the empty line, whose split has one (odd)
field, so parse fails instead of returning the empty record. -/
theorem C4_simple_roundtrip_counterexample :
    ¬ simpleParse (simpleUnparse []) = .ok [] := by decide

/-- C4 (amended): for every nonempty record with no TAB in any key and
no TAB and no newline character in any value,
SimpleParser.parse(SimpleParser.unparse(R)) equals R; unparse joins the
entries as key TAB value TAB key TAB value and strips embedded newlines
from values. -/
theorem C4_simple_roundtrip :
    ∀ R : Dict, R ≠ [] → (R.map Prod.fst).Nodup →
      (∀ p ∈ R, '\t' ∉ p.1) → (∀ p ∈ R, '\t' ∉ p.2 ∧ '\n' ∉ p.2) →
      simpleParse (simpleUnparse R) = .ok R := by
  intro R hne hnodup hkt hvt
  rw [simpleUnparse_fields R (fun p hp => (hvt p hp).2)]
  have hfields : splitTab (List.intercalate ['\t'] (R.flatMap fun p => [p.1, p.2]))
      = R.flatMap fun p => [p.1, p.2] := by
    apply splitTab_intercalate
    · cases R with
      | nil => exact absurd rfl hne
      | cons p r => simp
    · intro f hf
      rcases List.mem_flatMap.mp hf with ⟨p, hp, hfm⟩
      have : f = p.1 ∨ f = p.2 := by simpa using hfm
      rcases this with rfl | rfl
      · exact hkt p hp
      · exact (hvt p hp).1
  simp only [simpleParse, hfields]
  rw [if_neg (by rw [fields_length]; omega)]
  rw [evens_fields, odds_fields, zip_fst_snd]
  rw [show buildDict R = R from by
    rw [buildDict, foldl_dictInsert_fresh R [] hnodup (by simp)]
    simp]

/-- Witness for C4: a one-entry record with a space in the value
round-trips. -/
theorem C4_simple_roundtrip_witness :
    simpleParse (simpleUnparse [("a".toList, "x y".toList)])
      = .ok [("a".toList, "x y".toList)] :=
  C4_simple_roundtrip [("a".toList, "x y".toList)] (by decide) (by decide)
    (by decide) (by decide)

/-! ## Structural lemmas for the lexer and the loop -/

theorem lexRun_suffix : ∀ (s : Str) (st : LexSt) (t r : Str),
    lexRun st s = .ok (t, r) → ∃ u, s = u ++ r := by
  intro s
  induction s with
  | nil =>
    intro st t r h
    refine ⟨[], ?_⟩
    cases st with
    | start =>
      simp only [lexRun, Except.ok.injEq, Prod.mk.injEq] at h
      simp [← h.2]
    | word tok =>
      simp only [lexRun, Except.ok.injEq, Prod.mk.injEq] at h
      simp [← h.2]
    | quot q tok => simp [lexRun] at h
    | comment ret =>
      simp only [lexRun, Except.ok.injEq, Prod.mk.injEq] at h
      simp [← h.2]
  | cons c s' ih =>
    intro st t r h
    have hstep : (∃ st', lexRun st' s' = .ok (t, r)) ∨ r = s' ∨ r = c :: s' := by
      cases st with
      | start =>
        simp only [lexRun] at h
        split at h
        · exact Or.inl ⟨_, h⟩
        · split at h
          · exact Or.inl ⟨_, h⟩
          · split at h
            · exact Or.inl ⟨_, h⟩
            · split at h
              · exact Or.inl ⟨_, h⟩
              · cases h; exact Or.inr (Or.inl rfl)
      | word tok =>
        simp only [lexRun] at h
        split at h
        · cases h; exact Or.inr (Or.inl rfl)
        · split at h
          · exact Or.inl ⟨_, h⟩
          · split at h
            · exact Or.inl ⟨_, h⟩
            · cases h; exact Or.inr (Or.inr rfl)
      | quot q tok =>
        simp only [lexRun] at h
        split at h
        · cases h; exact Or.inr (Or.inl rfl)
        · exact Or.inl ⟨_, h⟩
      | comment ret =>
        simp only [lexRun] at h
        split at h
        · exact Or.inl ⟨_, h⟩
        · exact Or.inl ⟨_, h⟩
    rcases hstep with ⟨st', hst'⟩ | hr | hr
    · obtain ⟨u, hu⟩ := ih st' t r hst'
      exact ⟨c :: u, by rw [hu]; rfl⟩
    · exact ⟨[c], by rw [hr]; rfl⟩
    · exact ⟨[], by rw [hr]; rfl⟩

theorem lexRun_rest_le {st : LexSt} {s t r : Str} (h : lexRun st s = .ok (t, r)) :
    r.length ≤ s.length := by
  obtain ⟨u, rfl⟩ := lexRun_suffix s st t r h
  simp

theorem readToken_progress {s t r : Str} (h : readToken s = .ok (t, r)) (ht : t ≠ []) :
    r.length < s.length := by
  cases s with
  | nil =>
    simp only [readToken, lexRun, Except.ok.injEq, Prod.mk.injEq] at h
    exact absurd h.1.symm ht
  | cons c s' =>
    simp only [readToken, lexRun] at h
    have hle : r.length ≤ s'.length := by
      split at h
      · exact lexRun_rest_le h
      · split at h
        · exact lexRun_rest_le h
        · split at h
          · exact lexRun_rest_le h
          · split at h
            · exact lexRun_rest_le h
            · cases h; exact Nat.le_refl _
    simp only [List.length_cons]
    omega

theorem readToken_of_lexT {s : Str} {p : Str × Str} (h : lexT s = .ok p) :
    readToken s = .ok p := by
  rw [lexT] at h
  cases hr : readToken s with
  | error e => rw [hr] at h; simp [Except.mapError] at h
  | ok q =>
    rw [hr] at h
    simp only [Except.mapError, Except.ok.injEq] at h
    rw [h]

theorem lexT_err {s : Str} {e : ParseErr} (h : lexT s = .error e) :
    e = .noClosingQuote := by
  rw [lexT] at h
  cases hr : readToken s with
  | error e' => rw [hr] at h; simp only [Except.mapError, Except.error.injEq] at h; exact h.symm
  | ok q => rw [hr] at h; simp [Except.mapError] at h

theorem multiSub_no_fuel (rules : List SubRule) :
    ∀ (f : Nat) (s : Str), s.length ≤ f → multiSub rules f s ≠ .error .fuel := by
  intro f
  induction f with
  | zero =>
    intro s hlen
    have : s = [] := List.length_eq_zero.mp (Nat.le_zero.mp hlen)
    subst this
    simp [multiSub]
  | succ f ih =>
    intro s hlen
    cases s with
    | nil => simp [multiSub]
    | cons c rest =>
      simp only [multiSub]
      cases hm : firstMatch rules (c :: rest) with
      | none =>
        intro hcon
        cases hmk : multiSub rules f rest with
        | error e =>
          rw [hmk] at hcon
          cases e with
          | value => simp [Except.map] at hcon
          | fuel =>
            exact ih rest (by simp at hlen; omega) hmk
        | ok v => rw [hmk] at hcon; simp [Except.map] at hcon
      | some nr =>
        obtain ⟨n, repl⟩ := nr
        have hn : 1 ≤ n := firstMatch_pos hm
        cases hrep : repl ((c :: rest).take n) with
        | error e => simp [hrep]
        | ok r =>
          simp only [hrep]
          intro hcon
          cases hmk : multiSub rules f ((c :: rest).drop n) with
          | error e =>
            rw [hmk] at hcon
            cases e with
            | value => simp [Except.map] at hcon
            | fuel =>
              refine ih _ ?_ hmk
              simp only [List.length_drop, List.length_cons] at *
              omega
          | ok v => rw [hmk] at hcon; simp [Except.map] at hcon

theorem multiSubW_no_fuel (rules : List SubRule) (s : Str) :
    multiSubW rules s ≠ .error .fuel :=
  multiSub_no_fuel rules (s.length + 1) s (Nat.le_succ _)

theorem unquote_no_fuel (t : Str) : unquote t ≠ .error .fuel := by
  cases t with
  | nil => simp [unquote]
  | cons c rest =>
    rw [unquote.eq_2]
    split
    · simp
    · split
      · intro hcon
        cases hd : dqUnescape rest.dropLast with
        | error e =>
          rw [hd] at hcon
          cases e with
          | value => simp [Except.mapError, subToUnq] at hcon
          | fuel => exact multiSubW_no_fuel dqRules rest.dropLast hd
        | ok v => rw [hd] at hcon; simp [Except.mapError] at hcon
      · split
        · intro hcon
          cases hd : ansiUnescape ((c :: rest).drop 2).dropLast with
          | error e =>
            rw [hd] at hcon
            cases e with
            | value => simp [Except.mapError, subToUnq] at hcon
            | fuel => exact multiSubW_no_fuel ansiRules _ hd
          | ok v => rw [hd] at hcon; simp [Except.mapError] at hcon
        · simp

theorem unquote_err {t : Str} {e : ParseErr}
    (h : (unquote t).mapError unqToParse = .error e) :
    e = .indexError ∨ e = .valueError := by
  cases hu : unquote t with
  | error u =>
    rw [hu] at h
    simp only [Except.mapError, Except.error.injEq] at h
    cases u with
    | index => exact Or.inl h.symm
    | value => exact Or.inr h.symm
    | fuel => exact absurd hu (unquote_no_fuel t)
  | ok v => rw [hu] at h; simp [Except.mapError] at h

theorem lexItem_err {s : Str} {e : ParseErr} (h : lexItem s = .error e) :
    e = .noClosingQuote := by
  rw [lexItem] at h
  cases h₁ : lexT s with
  | error e₁ =>
    rw [h₁] at h
    simp only [except_bind_err, Except.error.injEq] at h
    rw [← h]
    exact lexT_err h₁
  | ok p =>
    obtain ⟨t, s₁⟩ := p
    rw [h₁] at h
    simp only [except_bind_ok] at h
    split at h
    · cases h₂ : lexT s₁ with
      | error e₂ =>
        rw [h₂] at h
        simp only [except_bind_err, Except.error.injEq] at h
        rw [← h]
        exact lexT_err h₂
      | ok q => rw [h₂] at h; simp [except_bind_ok, except_pure_eq] at h
    · simp [except_pure_eq] at h

theorem lexItem_rest_le {s t s' : Str} (h : lexItem s = .ok (t, s')) :
    s'.length ≤ s.length := by
  rw [lexItem] at h
  cases h₁ : lexT s with
  | error e₁ => rw [h₁] at h; simp [except_bind_err] at h
  | ok p =>
    obtain ⟨t₁, s₁⟩ := p
    have hle₁ : s₁.length ≤ s.length := lexRun_rest_le (readToken_of_lexT h₁)
    rw [h₁] at h
    simp only [except_bind_ok] at h
    split at h
    · cases h₂ : lexT s₁ with
      | error e₂ => rw [h₂] at h; simp [except_bind_err] at h
      | ok q =>
        obtain ⟨t₂, s₂⟩ := q
        have hle₂ : s₂.length ≤ s₁.length := lexRun_rest_le (readToken_of_lexT h₂)
        rw [h₂] at h
        simp only [except_bind_ok, except_pure_eq, Except.ok.injEq, Prod.mk.injEq] at h
        rw [← h.2]
        omega
    · simp only [except_pure_eq, Except.ok.injEq, Prod.mk.injEq] at h
      rw [← h.2]
      exact hle₁

theorem parseLoop_err (line : Str) : ∀ (f : Nat) (d : Dict) (s : Str) (e : ParseErr),
    s.length < f → parseLoop line f d s = .error e →
    e = .format (expectMsg line) ∨ e = .noClosingQuote ∨ e = .indexError ∨ e = .valueError := by
  intro f
  induction f with
  | zero => intro d s e hlen _; omega
  | succ f ih =>
    intro d s e hlen h
    simp only [parseLoop] at h
    cases h₁ : lexT s with
    | error e₁ =>
      rw [h₁] at h
      simp only [except_bind_err, Except.error.injEq] at h
      exact Or.inr (Or.inl (by rw [← h]; exact lexT_err h₁))
    | ok p =>
      obtain ⟨tok, s₁⟩ := p
      rw [h₁] at h
      simp only [except_bind_ok] at h
      split at h
      · simp [except_pure_eq] at h
      · split at h
        · simp only [Except.error.injEq] at h
          exact Or.inl h.symm
        · rename_i htokr htokn
          have hs₁ : s₁.length < s.length :=
            readToken_progress (readToken_of_lexT h₁) htokn
          rw [expectTok] at h
          split at h
          · simp only [except_bind_ok] at h
            cases h₂ : lexItem s₁ with
            | error e₂ =>
              rw [h₂] at h
              simp only [except_bind_err, Except.error.injEq] at h
              exact Or.inr (Or.inl (by rw [← h]; exact lexItem_err h₂))
            | ok q =>
              obtain ⟨kt, s₂⟩ := q
              have hs₂ : s₂.length ≤ s₁.length := lexItem_rest_le h₂
              rw [h₂] at h
              simp only [except_bind_ok] at h
              cases h₃ : (unquote kt).mapError unqToParse with
              | error e₃ =>
                rw [h₃] at h
                simp only [except_bind_err, Except.error.injEq] at h
                rcases unquote_err h₃ with h' | h'
                · exact Or.inr (Or.inr (Or.inl (by rw [← h, h'])))
                · exact Or.inr (Or.inr (Or.inr (by rw [← h, h'])))
              | ok key =>
                rw [h₃] at h
                simp only [except_bind_ok] at h
                cases h₄ : lexT s₂ with
                | error e₄ =>
                  rw [h₄] at h
                  simp only [except_bind_err, Except.error.injEq] at h
                  exact Or.inr (Or.inl (by rw [← h]; exact lexT_err h₄))
                | ok p₃ =>
                  obtain ⟨t₃, s₃⟩ := p₃
                  have hs₃ : s₃.length ≤ s₂.length :=
                    lexRun_rest_le (readToken_of_lexT h₄)
                  rw [h₄] at h
                  simp only [except_bind_ok] at h
                  rw [expectTok] at h
                  split at h
                  · simp only [except_bind_ok] at h
                    cases h₅ : lexT s₃ with
                    | error e₅ =>
                      rw [h₅] at h
                      simp only [except_bind_err, Except.error.injEq] at h
                      exact Or.inr (Or.inl (by rw [← h]; exact lexT_err h₅))
                    | ok p₄ =>
                      obtain ⟨t₄, s₄⟩ := p₄
                      have hs₄ : s₄.length ≤ s₃.length :=
                        lexRun_rest_le (readToken_of_lexT h₅)
                      rw [h₅] at h
                      simp only [except_bind_ok] at h
                      rw [expectTok] at h
                      split at h
                      · simp only [except_bind_ok] at h
                        cases h₆ : lexItem s₄ with
                        | error e₆ =>
                          rw [h₆] at h
                          simp only [except_bind_err, Except.error.injEq] at h
                          exact Or.inr (Or.inl (by rw [← h]; exact lexItem_err h₆))
                        | ok p₅ =>
                          obtain ⟨vt, s₅⟩ := p₅
                          have hs₅ : s₅.length ≤ s₄.length := lexItem_rest_le h₆
                          rw [h₆] at h
                          simp only [except_bind_ok] at h
                          cases h₇ : (unquote vt).mapError unqToParse with
                          | error e₇ =>
                            rw [h₇] at h
                            simp only [except_bind_err, Except.error.injEq] at h
                            rcases unquote_err h₇ with h' | h'
                            · exact Or.inr (Or.inr (Or.inl (by rw [← h, h'])))
                            · exact Or.inr (Or.inr (Or.inr (by rw [← h, h'])))
                          | ok v =>
                            rw [h₇] at h
                            simp only [except_bind_ok] at h
                            exact ih (dictInsert d key v) s₅ e (by omega) h
                      · simp only [except_bind_err, Except.error.injEq] at h
                        exact Or.inl h.symm
                  · simp only [except_bind_err, Except.error.injEq] at h
                    exact Or.inl h.symm
          · simp only [except_bind_err, Except.error.injEq] at h
            exact Or.inl h.symm

theorem bashParse_err (line : Str) (e : ParseErr) (h : bashParse line = .error e) :
    e = .format (expectMsg line) ∨ e = .noClosingQuote ∨ e = .indexError ∨ e = .valueError := by
  simp only [bashParse] at h
  cases hc : bashParseCore line with
  | ok p => rw [hc] at h; simp [Except.map] at h
  | error e' =>
    rw [hc] at h
    simp only [Except.map, Except.error.injEq] at h
    rw [← h]
    clear h
    simp only [bashParseCore] at hc
    cases h₁ : lexT line with
    | error e₁ =>
      rw [h₁] at hc
      simp only [except_bind_err, Except.error.injEq] at hc
      exact Or.inr (Or.inl (by rw [← hc]; exact lexT_err h₁))
    | ok p₁ =>
      obtain ⟨t₁, s₁⟩ := p₁
      have hl₁ : s₁.length ≤ line.length := lexRun_rest_le (readToken_of_lexT h₁)
      rw [h₁] at hc
      simp only [except_bind_ok] at hc
      rw [expectIn] at hc
      split at hc
      · simp only [except_bind_ok] at hc
        cases h₂ : lexT s₁ with
        | error e₂ =>
          rw [h₂] at hc
          simp only [except_bind_err, Except.error.injEq] at hc
          exact Or.inr (Or.inl (by rw [← hc]; exact lexT_err h₂))
        | ok p₂ =>
          obtain ⟨t₂, s₂⟩ := p₂
          have hl₂ : s₂.length ≤ s₁.length := lexRun_rest_le (readToken_of_lexT h₂)
          rw [h₂] at hc
          simp only [except_bind_ok] at hc
          rw [expectTok] at hc
          split at hc
          · simp only [except_bind_ok] at hc
            cases h₃ : lexT s₂ with
            | error e₃ =>
              rw [h₃] at hc
              simp only [except_bind_err, Except.error.injEq] at hc
              exact Or.inr (Or.inl (by rw [← hc]; exact lexT_err h₃))
            | ok p₃ =>
              obtain ⟨t₃, s₃⟩ := p₃
              have hl₃ : s₃.length ≤ s₂.length := lexRun_rest_le (readToken_of_lexT h₃)
              rw [h₃] at hc
              simp only [except_bind_ok] at hc
              rw [expectTok] at hc
              split at hc
              · simp only [except_bind_ok] at hc
                cases h₄ : lexT s₃ with
                | error e₄ =>
                  rw [h₄] at hc
                  simp only [except_bind_err, Except.error.injEq] at hc
                  exact Or.inr (Or.inl (by rw [← hc]; exact lexT_err h₄))
                | ok p₄ =>
                  obtain ⟨t₄, s₄⟩ := p₄
                  have hl₄ : s₄.length ≤ s₃.length := lexRun_rest_le (readToken_of_lexT h₄)
                  rw [h₄] at hc
                  simp only [except_bind_ok] at hc
                  cases h₅ : lexT s₄ with
                  | error e₅ =>
                    rw [h₅] at hc
                    simp only [except_bind_err, Except.error.injEq] at hc
                    exact Or.inr (Or.inl (by rw [← hc]; exact lexT_err h₅))
                  | ok p₅ =>
                    obtain ⟨t₅, s₅⟩ := p₅
                    have hl₅ : s₅.length ≤ s₄.length := lexRun_rest_le (readToken_of_lexT h₅)
                    rw [h₅] at hc
                    simp only [except_bind_ok] at hc
                    rw [expectTok] at hc
                    split at hc
                    · simp only [except_bind_ok] at hc
                      cases h₆ : lexT s₅ with
                      | error e₆ =>
                        rw [h₆] at hc
                        simp only [except_bind_err, Except.error.injEq] at hc
                        exact Or.inr (Or.inl (by rw [← hc]; exact lexT_err h₆))
                      | ok p₆ =>
                        obtain ⟨t₆, s₆⟩ := p₆
                        have hl₆ : s₆.length ≤ s₅.length :=
                          lexRun_rest_le (readToken_of_lexT h₆)
                        rw [h₆] at hc
                        simp only [except_bind_ok] at hc
                        rw [expectTok] at hc
                        split at hc
                        · simp only [except_bind_ok] at hc
                          exact parseLoop_err line (line.length + 1) [] s₆ e' (by omega) hc
                        · simp only [except_bind_err, Except.error.injEq] at hc
                          exact Or.inl hc.symm
                    · simp only [except_bind_err, Except.error.injEq] at hc
                      exact Or.inl hc.symm
              · simp only [except_bind_err, Except.error.injEq] at hc
                exact Or.inl hc.symm
          · simp only [except_bind_err, Except.error.injEq] at hc
            exact Or.inl hc.symm
      · simp only [except_bind_err, Except.error.injEq] at hc
        exact Or.inl hc.symm

theorem isPrefixOf_self (l : Str) : l.isPrefixOf l = true := by
  induction l with
  | nil => rfl
  | cons c r ih => simp [List.isPrefixOf, ih]

theorem isSubstr_append_left (pre l : Str) : isSubstr l (pre ++ l) = true := by
  simp only [isSubstr, List.any_eq_true]
  refine ⟨pre.length, ?_, ?_⟩
  · simp only [List.mem_range, List.length_append]
    omega
  · rw [List.drop_left]
    exact isPrefixOf_self l

theorem isSubstr_length {l m : Str} (h : isSubstr l m = true) : l.length ≤ m.length := by
  rw [isSubstr, List.any_eq_true] at h
  obtain ⟨i, _, hp⟩ := h
  have h1 : l.length ≤ (m.drop i).length :=
    (List.isPrefixOf_iff_prefix.mp hp).length_le
  have h2 : (m.drop i).length ≤ m.length := by
    rw [List.length_drop]
    omega
  omega

/-! ## C3: error reporting -/

/-- C3 as stated is false: on a line with an unbalanced quote, the bash
codec fails with shlex's ValueError("No closing quotation"), whose
message does not contain the offending line. -/
theorem C3_error_reporting_counterexample :
    bashParse "declare -A x=([k]='v".toList = .error .noClosingQuote ∧
    carriesLine ParseErr.noClosingQuote "declare -A x=([k]='v".toList = false := by
  exact ⟨by decide, by decide⟩

/-- C3 (amended): parse is all-or-nothing in every codec (each call
either raises or returns one complete mapping), and every FormatError
raised by an explicit structural check carries the raw line: the json
codec's not-a-dict check, every failure of the simple codec, and the
bash codec's expect.  However, the json codec re-raises the stdlib
decoder's own message unchanged, and the bash codec can also fail with
the unbalanced-quote error, an index error from a truncated key/value
position, or a conversion error from an invalid escape; those messages
are fixed strings independent of the line, and no message can contain
a line longer than itself. -/
theorem C3_error_reporting :
    (∀ (line : Str) (d : Dict), jsonParse line (.dict d) = .ok d) ∧
    (∀ line : Str, ∃ e, jsonParse line .nonDict = .error e ∧
      carriesLine e line = true) ∧
    (∀ line m : Str, jsonParse line (.decodeError m) = .error (.format m)) ∧
    (∀ (line : Str) (e : ParseErr), simpleParse line = .error e →
      carriesLine e line = true) ∧
    (∀ line : Str, carriesLine (.format (expectMsg line)) line = true) ∧
    (∀ (line : Str) (e : ParseErr), bashParse line = .error e →
      e = .format (expectMsg line) ∨
      errMsg e = "No closing quotation".toList ∨
      errMsg e = "string index out of range".toList ∨
      errMsg e = "invalid literal for int() with base 8".toList) ∧
    (∀ (e : ParseErr) (l2 : Str), (errMsg e).length < l2.length →
      carriesLine e l2 = false) ∧
    (∀ (line : Str) (e : ParseErr), bashParse line = .error e →
      ∀ d, ¬ bashParse line = .ok d) ∧
    (∀ (line : Str) (e : ParseErr), simpleParse line = .error e →
      ∀ d, ¬ simpleParse line = .ok d) ∧
    (∀ (line : Str) (e : ParseErr) (loaded : JsonLoads),
      jsonParse line loaded = .error e → ∀ d, ¬ jsonParse line loaded = .ok d) := by
  refine ⟨?_, ?_, ?_, ?_, ?_, ?_, ?_, ?_, ?_, ?_⟩
  · intro line d
    rfl
  · intro line
    refine ⟨.format ("Expected to parse an json object, got ".toList ++ line), rfl, ?_⟩
    simp only [carriesLine, errMsg]
    exact isSubstr_append_left _ line
  · intro line m
    rfl
  · intro line e h
    rw [simpleParse] at h
    split at h
    · simp only [Except.error.injEq] at h
      rw [← h]
      simp only [carriesLine, errMsg, simpleMsg]
      exact isSubstr_append_left _ line
    · simp at h
  · intro line
    simp only [carriesLine, errMsg, expectMsg]
    exact isSubstr_append_left _ line
  · intro line e h
    rcases bashParse_err line e h with h' | h' | h' | h'
    · exact Or.inl h'
    · exact Or.inr (Or.inl (by rw [h']; rfl))
    · exact Or.inr (Or.inr (Or.inl (by rw [h']; rfl)))
    · exact Or.inr (Or.inr (Or.inr (by rw [h']; rfl)))
  · intro e l2 hlen
    cases hs : carriesLine e l2 with
    | false => rfl
    | true => exact absurd (isSubstr_length hs) (by omega)
  · intro line e h d hok
    rw [h] at hok
    cases hok
  · intro line e h d hok
    rw [h] at hok
    cases hok
  · intro line e loaded h d hok
    rw [h] at hok
    cases hok

/-- Witness for C3: the json codec returns a decoded dict as is and its
not-a-dict failure carries the line; the simple codec's odd-field
failure carries the line; a bash expectation failure carries the line;
and the fixed no-closing-quotation message cannot carry a line longer
than itself. -/
theorem C3_error_reporting_witness :
    jsonParse "x".toList (.dict [(['a'], ['b'])]) = .ok [(['a'], ['b'])] ∧
    (∃ e, jsonParse "[1, 2]".toList .nonDict = .error e ∧
      carriesLine e "[1, 2]".toList = true) ∧
    carriesLine (.format (simpleMsg "a".toList)) "a".toList = true ∧
    carriesLine (.format (expectMsg "oops".toList)) "oops".toList = true ∧
    carriesLine ParseErr.noClosingQuote
      "declare -A x=([averylongoffendingkey]='v".toList = false := by
  refine ⟨C3_error_reporting.1 "x".toList [(['a'], ['b'])],
    C3_error_reporting.2.1 "[1, 2]".toList, ?_,
    C3_error_reporting.2.2.2.2.1 "oops".toList,
    C3_error_reporting.2.2.2.2.2.2.1 ParseErr.noClosingQuote
      "declare -A x=([averylongoffendingkey]='v".toList (by decide)⟩
  exact C3_error_reporting.2.2.2.1 "a".toList (.format (simpleMsg "a".toList)) (by decide)

/-! ## C5: the header requirements -/

theorem bashParse_ok_header (line : Str) (d : Dict) (h : bashParse line = .ok d) :
    ∃ t₁ s₁ s₂ s₃ t₄ s₄ s₅ s₆,
      readToken line = .ok (t₁, s₁) ∧
      (t₁ = "declare".toList ∨ t₁ = "typeset".toList) ∧
      readToken s₁ = .ok (['-'], s₂) ∧
      readToken s₂ = .ok (['A'], s₃) ∧
      readToken s₃ = .ok (t₄, s₄) ∧
      readToken s₄ = .ok (['='], s₅) ∧
      readToken s₅ = .ok (['('], s₆) := by
  simp only [bashParse] at h
  cases hc : bashParseCore line with
  | error e => rw [hc] at h; simp [Except.map] at h
  | ok p =>
    clear h
    simp only [bashParseCore] at hc
    cases h₁ : lexT line with
    | error e₁ => rw [h₁] at hc; simp [except_bind_err] at hc
    | ok p₁ =>
      obtain ⟨t₁, s₁⟩ := p₁
      rw [h₁] at hc
      simp only [except_bind_ok] at hc
      rw [expectIn] at hc
      split at hc
      case isFalse => simp [except_bind_err] at hc
      case isTrue hmem =>
      simp only [except_bind_ok] at hc
      cases h₂ : lexT s₁ with
      | error e₂ => rw [h₂] at hc; simp [except_bind_err] at hc
      | ok p₂ =>
        obtain ⟨t₂, s₂⟩ := p₂
        rw [h₂] at hc
        simp only [except_bind_ok] at hc
        rw [expectTok] at hc
        split at hc
        case isFalse => simp [except_bind_err] at hc
        case isTrue ht₂ =>
        simp only [except_bind_ok] at hc
        cases h₃ : lexT s₂ with
        | error e₃ => rw [h₃] at hc; simp [except_bind_err] at hc
        | ok p₃ =>
          obtain ⟨t₃, s₃⟩ := p₃
          rw [h₃] at hc
          simp only [except_bind_ok] at hc
          rw [expectTok] at hc
          split at hc
          case isFalse => simp [except_bind_err] at hc
          case isTrue ht₃ =>
          simp only [except_bind_ok] at hc
          cases h₄ : lexT s₃ with
          | error e₄ => rw [h₄] at hc; simp [except_bind_err] at hc
          | ok p₄ =>
            obtain ⟨t₄, s₄⟩ := p₄
            rw [h₄] at hc
            simp only [except_bind_ok] at hc
            cases h₅ : lexT s₄ with
            | error e₅ => rw [h₅] at hc; simp [except_bind_err] at hc
            | ok p₅ =>
              obtain ⟨t₅, s₅⟩ := p₅
              rw [h₅] at hc
              simp only [except_bind_ok] at hc
              rw [expectTok] at hc
              split at hc
              case isFalse => simp [except_bind_err] at hc
              case isTrue ht₅ =>
              simp only [except_bind_ok] at hc
              cases h₆ : lexT s₅ with
              | error e₆ => rw [h₆] at hc; simp [except_bind_err] at hc
              | ok p₆ =>
                obtain ⟨t₆, s₆⟩ := p₆
                rw [h₆] at hc
                simp only [except_bind_ok] at hc
                rw [expectTok] at hc
                split at hc
                case isFalse => simp [except_bind_err] at hc
                case isTrue ht₆ =>
                refine ⟨t₁, s₁, s₂, s₃, t₄, s₄, s₅, s₆,
                  readToken_of_lexT h₁, ?_, ?_, ?_, readToken_of_lexT h₄, ?_, ?_⟩
                · simpa using hmem
                · rw [← ht₂]; exact readToken_of_lexT h₂
                · rw [← ht₃]; exact readToken_of_lexT h₃
                · rw [← ht₅]; exact readToken_of_lexT h₅
                · rw [← ht₆]; exact readToken_of_lexT h₆

theorem parseLoop_rpar (line : Str) (f : Nat) (d : Dict) (tail : Str) :
    parseLoop line (f + 1) d (')' :: tail) = .ok (d, tail) := by
  simp only [parseLoop]
  rw [lexT_of (readToken_punct ')' tail (by decide) (by decide) (by decide) (by decide))]
  simp [except_bind_ok, except_pure_eq]

theorem bashParse_any_name (w : Str) (hw : w ≠ []) (hall : ∀ c ∈ w, isWordCh c = true) :
    bashParse ("declare -A ".toList ++ w ++ "=()".toList) = .ok [] := by
  rw [show ("declare -A ".toList ++ w ++ "=()".toList : Str)
      = "declare".toList ++ (' ' :: ('-' :: 'A' :: ' ' :: (w ++ ('=' :: '(' :: ')' :: []))))
      from by simp]
  simp only [bashParse, bashParseCore]
  rw [lexT_of (by
    rw [readToken_word "declare".toList _ (by decide) (by decide)]
    exact lexRun_word_ws _ ' ' _ (by decide))]
  simp only [except_bind_ok]
  rw [show ∀ l : Str, expectIn l "declare".toList ["declare".toList, "typeset".toList]
      = .ok () from fun l => by simp [expectIn]]
  simp only [except_bind_ok]
  rw [lexT_of (readToken_punct '-' _ (by decide) (by decide) (by decide) (by decide))]
  simp only [except_bind_ok]
  rw [show ∀ l : Str, expectTok l ['-'] ['-'] = .ok () from fun l => by simp [expectTok]]
  simp only [except_bind_ok]
  rw [show ('A' :: ' ' :: (w ++ ('=' :: '(' :: ')' :: [])) : Str)
      = ['A'] ++ (' ' :: (w ++ ('=' :: '(' :: ')' :: []))) from rfl]
  rw [lexT_of (by
    rw [readToken_word ['A'] _ (by decide) (by decide)]
    exact lexRun_word_ws _ ' ' _ (by decide))]
  simp only [except_bind_ok]
  rw [show ∀ l : Str, expectTok l ['A'] ['A'] = .ok () from fun l => by simp [expectTok]]
  simp only [except_bind_ok]
  rw [lexT_of (by
    rw [readToken_word w _ hw hall]
    exact lexRun_word_push w '=' _ (by decide) (by decide) (by decide) (by decide))]
  simp only [except_bind_ok]
  rw [lexT_of (readToken_punct '=' _ (by decide) (by decide) (by decide) (by decide))]
  simp only [except_bind_ok]
  rw [show ∀ l : Str, expectTok l ['='] ['='] = .ok () from fun l => by simp [expectTok]]
  simp only [except_bind_ok]
  rw [lexT_of (readToken_punct '(' _ (by decide) (by decide) (by decide) (by decide))]
  simp only [except_bind_ok]
  rw [show ∀ l : Str, expectTok l ['('] ['('] = .ok () from fun l => by simp [expectTok]]
  simp only [except_bind_ok]
  rw [parseLoop_rpar]
  rfl

/-- C5: parse requires, in order, a keyword token declare or typeset, a
flag token -, a type token that must be A, a variable-name token that is
consumed and ignored (any word is accepted), =, then (; a type token
other than A, a bad keyword, or a missing terminating ) each raise the
FormatError carrying the line. -/
theorem C5_header_requirements :
    (∀ (line : Str) (d : Dict), bashParse line = .ok d →
      ∃ t₁ s₁ s₂ s₃ t₄ s₄ s₅ s₆,
        readToken line = .ok (t₁, s₁) ∧
        (t₁ = "declare".toList ∨ t₁ = "typeset".toList) ∧
        readToken s₁ = .ok (['-'], s₂) ∧
        readToken s₂ = .ok (['A'], s₃) ∧
        readToken s₃ = .ok (t₄, s₄) ∧
        readToken s₄ = .ok (['='], s₅) ∧
        readToken s₅ = .ok (['('], s₆)) ∧
    (∀ w : Str, w ≠ [] → (∀ c ∈ w, isWordCh c = true) →
      bashParse ("declare -A ".toList ++ w ++ "=()".toList) = .ok []) ∧
    bashParse "typeset -A y=([k]=v)".toList = .ok [("k".toList, "v".toList)] ∧
    bashParse "declare -a x=()".toList
      = .error (.format (expectMsg "declare -a x=()".toList)) ∧
    bashParse "foo -A x=()".toList
      = .error (.format (expectMsg "foo -A x=()".toList)) ∧
    bashParse "declare -A x=([k]=v".toList
      = .error (.format (expectMsg "declare -A x=([k]=v".toList)) := by
  exact ⟨bashParse_ok_header, bashParse_any_name, by decide, by decide, by decide, by decide⟩

/-- Witness for C5: the inversion at a concrete accepted line, and an
arbitrary variable name being ignored. -/
theorem C5_header_requirements_witness :
    bashParse ("declare -A ".toList ++ "somename".toList ++ "=()".toList) = .ok [] :=
  C5_header_requirements.2.1 "somename".toList (by decide) (by decide)

/-! ## C10: trailing text after the closing parenthesis -/

/-- The lexer reads a token from an extended input exactly as from the
original, provided the original read either left unread input behind or
returned a token (such as the parenthesis) that no end-of-input clause
can produce.  The accumulator invariant rules out the word-at-eof clause
for such tokens. -/
theorem lexRun_frame : ∀ (s : Str) (st : LexSt) (t r extra : Str),
    (∀ c ∈ lexAcc st, (isWordCh c || isQuoteCh c) = true) →
    lexRun st s = .ok (t, r) →
    (r ≠ [] ∨ ∃ c ∈ t, (isWordCh c || isQuoteCh c) = false) →
    lexRun st (s ++ extra) = .ok (t, r ++ extra) := by
  intro s
  induction s with
  | nil =>
    intro st t r extra hinv h hc
    cases st with
    | start =>
      simp only [lexRun, Except.ok.injEq, Prod.mk.injEq] at h
      rcases hc with hc | ⟨c, hm, _⟩
      · exact absurd h.2.symm hc
      · rw [← h.1] at hm; cases hm
    | word tok =>
      simp only [lexRun, Except.ok.injEq, Prod.mk.injEq] at h
      rcases hc with hc | ⟨c, hm, hcf⟩
      · exact absurd h.2.symm hc
      · rw [← h.1] at hm
        exact absurd (hinv c hm) (by rw [hcf]; decide)
    | quot q tok => simp [lexRun] at h
    | comment ret =>
      simp only [lexRun, Except.ok.injEq, Prod.mk.injEq] at h
      rcases hc with hc | ⟨c, hm, hcf⟩
      · exact absurd h.2.symm hc
      · rw [← h.1] at hm
        cases ret with
        | none => cases hm
        | some tok => exact absurd (hinv c hm) (by rw [hcf]; decide)
  | cons a s' ih =>
    intro st t r extra hinv h hc
    rw [List.cons_append]
    cases st with
    | start =>
      by_cases h1 : isWs a
      · rw [lexRun, if_pos h1] at h
        rw [lexRun, if_pos h1]
        exact ih .start t r extra hinv h hc
      · by_cases h2 : a = '#'
        · rw [lexRun, if_neg h1, if_pos h2] at h
          rw [lexRun, if_neg h1, if_pos h2]
          exact ih (.comment none) t r extra (by intro c hm; cases hm) h hc
        · by_cases h3 : isWordCh a
          · rw [lexRun, if_neg h1, if_neg h2, if_pos h3] at h
            rw [lexRun, if_neg h1, if_neg h2, if_pos h3]
            refine ih (.word [a]) t r extra ?_ h hc
            intro c hm
            rw [show lexAcc (LexSt.word [a]) = [a] from rfl] at hm
            cases hm with
            | head => simp [h3]
            | tail _ hm' => cases hm'
          · by_cases h4 : isQuoteCh a
            · rw [lexRun, if_neg h1, if_neg h2, if_neg h3, if_pos h4] at h
              rw [lexRun, if_neg h1, if_neg h2, if_neg h3, if_pos h4]
              exact ih (.quot a [a]) t r extra (by intro c hm; cases hm) h hc
            · rw [lexRun, if_neg h1, if_neg h2, if_neg h3, if_neg h4] at h
              rw [lexRun, if_neg h1, if_neg h2, if_neg h3, if_neg h4]
              simp only [Except.ok.injEq, Prod.mk.injEq] at h
              rw [← h.1, ← h.2]
    | word tok =>
      by_cases h1 : isWs a
      · rw [lexRun, if_pos h1] at h
        rw [lexRun, if_pos h1]
        simp only [Except.ok.injEq, Prod.mk.injEq] at h
        rw [← h.1, ← h.2]
      · by_cases h2 : a = '#'
        · rw [lexRun, if_neg h1, if_pos h2] at h
          rw [lexRun, if_neg h1, if_pos h2]
          exact ih (.comment (some tok)) t r extra hinv h hc
        · by_cases h3 : isWordCh a || isQuoteCh a
          · rw [lexRun, if_neg h1, if_neg h2, if_pos h3] at h
            rw [lexRun, if_neg h1, if_neg h2, if_pos h3]
            refine ih (.word (tok ++ [a])) t r extra ?_ h hc
            intro c hm
            rw [show lexAcc (LexSt.word (tok ++ [a])) = tok ++ [a] from rfl] at hm
            rcases List.mem_append.mp hm with hm' | hm'
            · exact hinv c hm'
            · cases hm' with
              | head => exact h3
              | tail _ hm'' => cases hm''
          · rw [lexRun, if_neg h1, if_neg h2, if_neg h3] at h
            rw [lexRun, if_neg h1, if_neg h2, if_neg h3]
            simp only [Except.ok.injEq, Prod.mk.injEq] at h
            rw [← h.1, ← h.2, List.cons_append]
    | quot q tok =>
      by_cases h1 : a = q
      · rw [lexRun, if_pos h1] at h
        rw [lexRun, if_pos h1]
        simp only [Except.ok.injEq, Prod.mk.injEq] at h
        rw [← h.1, ← h.2]
      · rw [lexRun, if_neg h1] at h
        rw [lexRun, if_neg h1]
        exact ih (.quot q (tok ++ [a])) t r extra (by intro c hm; cases hm) h hc
    | comment ret =>
      cases ret with
      | none =>
        by_cases h1 : a = '\n'
        · rw [lexRun, if_pos h1] at h
          rw [lexRun, if_pos h1]
          exact ih .start t r extra hinv h hc
        · rw [lexRun, if_neg h1] at h
          rw [lexRun, if_neg h1]
          exact ih (.comment none) t r extra hinv h hc
      | some tok =>
        by_cases h1 : a = '\n'
        · rw [lexRun, if_pos h1] at h
          rw [lexRun, if_pos h1]
          exact ih (.word tok) t r extra hinv h hc
        · rw [lexRun, if_neg h1] at h
          rw [lexRun, if_neg h1]
          exact ih (.comment (some tok)) t r extra hinv h hc

/-- `get_token` frame: a successful read whose rest is nonempty, or
which returned the parenthesis token, is unchanged by trailing text. -/
theorem lexT_frame {s t r : Str} (extra : Str) (h : lexT s = .ok (t, r))
    (hc : r ≠ [] ∨ t = [')']) :
    lexT (s ++ extra) = .ok (t, r ++ extra) := by
  refine lexT_of ?_
  refine lexRun_frame s .start t r extra (by intro c hm; cases hm)
    (readToken_of_lexT h) ?_
  rcases hc with hc | rfl
  · exact Or.inl hc
  · exact Or.inr ⟨')', List.mem_cons_self _ _, by decide⟩

theorem lexT_nil : lexT ([] : Str) = .ok ([], []) := rfl

theorem lexItem_nil : lexItem ([] : Str) = .ok ([], []) := rfl

/-- Key/value token reads (with the `$` merge) are unchanged by trailing
text when they leave unread input behind. -/
theorem lexItem_frame {s t r : Str} (extra : Str) (h : lexItem s = .ok (t, r))
    (hr : r ≠ []) :
    lexItem (s ++ extra) = .ok (t, r ++ extra) := by
  simp only [lexItem] at h ⊢
  cases h₁ : lexT s with
  | error e => rw [h₁] at h; simp only [except_bind_err] at h; simp at h
  | ok p =>
    obtain ⟨tok, s₁⟩ := p
    rw [h₁] at h
    simp only [except_bind_ok] at h
    by_cases hd : tok = ['$']
    · rw [if_pos hd] at h
      cases h₂ : lexT s₁ with
      | error e => rw [h₂] at h; simp only [except_bind_err] at h; simp at h
      | ok q =>
        obtain ⟨tok₂, s₂⟩ := q
        rw [h₂] at h
        simp only [except_bind_ok, except_pure_eq, Except.ok.injEq, Prod.mk.injEq] at h
        have hs₂ : s₂ ≠ [] := by rw [h.2]; exact hr
        have hs₁ : s₁ ≠ [] := by
          intro he
          rw [he, lexT_nil] at h₂
          simp only [Except.ok.injEq, Prod.mk.injEq] at h₂
          exact hs₂ h₂.2.symm
        rw [lexT_frame extra h₁ (Or.inl hs₁)]
        simp only [except_bind_ok]
        rw [if_pos hd]
        rw [lexT_frame extra h₂ (Or.inl hs₂)]
        simp only [except_bind_ok, except_pure_eq]
        rw [h.1, h.2]
    · rw [if_neg hd] at h
      simp only [except_pure_eq, Except.ok.injEq, Prod.mk.injEq] at h
      have hs₁ : s₁ ≠ [] := by rw [h.2]; exact hr
      rw [lexT_frame extra h₁ (Or.inl hs₁)]
      simp only [except_bind_ok]
      rw [if_neg hd]
      simp only [except_pure_eq]
      rw [h.1, h.2]

/-- The key/value loop never succeeds on exhausted input: the eof token
fails the bracket check (or the fuel is out). -/
theorem parseLoop_ok_ne_nil {line : Str} {f : Nat} {d res : Dict} {rest s : Str}
    (h : parseLoop line f d s = .ok (res, rest)) : s ≠ [] := by
  intro he
  subst he
  cases f with
  | zero => simp [parseLoop] at h
  | succ g =>
    rw [show parseLoop line (g + 1) d [] = .error (.format (expectMsg line)) from rfl] at h
    simp at h

/-- Loop frame: a successful run of the key/value loop is replayed
verbatim on any extension of the input (with any fuel at least the
original and any line used for error messages), because every token it
consumed was followed by further input, and the final parenthesis token
is read the same way regardless of what follows. -/
theorem parseLoop_frame (line lineB : Str) : ∀ (f : Nat) (d : Dict) (s : Str)
    (res : Dict) (rest extra : Str) (fB : Nat), f ≤ fB →
    parseLoop line f d s = .ok (res, rest) →
    parseLoop lineB fB d (s ++ extra) = .ok (res, rest ++ extra) := by
  intro f
  induction f with
  | zero => intro d s res rest extra fB _ h; simp [parseLoop] at h
  | succ f ih =>
    intro d s res rest extra fB hle h
    obtain ⟨g, rfl⟩ : ∃ g, fB = g + 1 := ⟨fB - 1, by omega⟩
    have hg : f ≤ g := by omega
    simp only [parseLoop] at h
    cases h₁ : lexT s with
    | error e₁ => rw [h₁] at h; simp only [except_bind_err] at h; simp at h
    | ok p =>
      obtain ⟨tok, s₁⟩ := p
      rw [h₁] at h
      simp only [except_bind_ok] at h
      by_cases ht1 : tok = [')']
      · rw [if_pos ht1] at h
        simp only [except_pure_eq, Except.ok.injEq, Prod.mk.injEq] at h
        simp only [parseLoop]
        rw [lexT_frame extra h₁ (Or.inr ht1)]
        simp only [except_bind_ok]
        rw [if_pos ht1]
        simp only [except_pure_eq]
        rw [h.1, h.2]
      · rw [if_neg ht1] at h
        by_cases ht2 : tok = []
        · rw [if_pos ht2] at h; simp at h
        · rw [if_neg ht2] at h
          rw [expectTok] at h
          by_cases ht3 : tok = ['[']
          · rw [if_pos ht3] at h
            simp only [except_bind_ok] at h
            cases h₂ : lexItem s₁ with
            | error e => rw [h₂] at h; simp only [except_bind_err] at h; simp at h
            | ok q =>
              obtain ⟨ktok, s₂⟩ := q
              rw [h₂] at h
              simp only [except_bind_ok] at h
              cases h₃ : (unquote ktok).mapError unqToParse with
              | error e => rw [h₃] at h; simp only [except_bind_err] at h; simp at h
              | ok key =>
                rw [h₃] at h
                simp only [except_bind_ok] at h
                cases h₄ : lexT s₂ with
                | error e => rw [h₄] at h; simp only [except_bind_err] at h; simp at h
                | ok p₃ =>
                  obtain ⟨t₃, s₃⟩ := p₃
                  rw [h₄] at h
                  simp only [except_bind_ok] at h
                  rw [expectTok] at h
                  by_cases ht4 : t₃ = [']']
                  · rw [if_pos ht4] at h
                    simp only [except_bind_ok] at h
                    cases h₅ : lexT s₃ with
                    | error e => rw [h₅] at h; simp only [except_bind_err] at h; simp at h
                    | ok p₄ =>
                      obtain ⟨t₄, s₄⟩ := p₄
                      rw [h₅] at h
                      simp only [except_bind_ok] at h
                      rw [expectTok] at h
                      by_cases ht5 : t₄ = ['=']
                      · rw [if_pos ht5] at h
                        simp only [except_bind_ok] at h
                        cases h₆ : lexItem s₄ with
                        | error e => rw [h₆] at h; simp only [except_bind_err] at h; simp at h
                        | ok p₅ =>
                          obtain ⟨vt, s₅⟩ := p₅
                          rw [h₆] at h
                          simp only [except_bind_ok] at h
                          cases h₇ : (unquote vt).mapError unqToParse with
                          | error e => rw [h₇] at h; simp only [except_bind_err] at h; simp at h
                          | ok v =>
                            rw [h₇] at h
                            simp only [except_bind_ok] at h
                            have hs₅ : s₅ ≠ [] := parseLoop_ok_ne_nil h
                            have hs₄ : s₄ ≠ [] := by
                              intro he
                              rw [he, lexItem_nil] at h₆
                              simp only [Except.ok.injEq, Prod.mk.injEq] at h₆
                              exact hs₅ h₆.2.symm
                            have hs₃ : s₃ ≠ [] := by
                              intro he
                              rw [he, lexT_nil] at h₅
                              simp only [Except.ok.injEq, Prod.mk.injEq] at h₅
                              exact hs₄ h₅.2.symm
                            have hs₂ : s₂ ≠ [] := by
                              intro he
                              rw [he, lexT_nil] at h₄
                              simp only [Except.ok.injEq, Prod.mk.injEq] at h₄
                              exact hs₃ h₄.2.symm
                            have hs₁ : s₁ ≠ [] := by
                              intro he
                              rw [he, lexItem_nil] at h₂
                              simp only [Except.ok.injEq, Prod.mk.injEq] at h₂
                              exact hs₂ h₂.2.symm
                            simp only [parseLoop]
                            rw [lexT_frame extra h₁ (Or.inl hs₁)]
                            simp only [except_bind_ok]
                            rw [if_neg ht1, if_neg (by simp [ht3])]
                            rw [expectTok, if_pos ht3]
                            simp only [except_bind_ok]
                            rw [lexItem_frame extra h₂ hs₂]
                            simp only [except_bind_ok]
                            rw [h₃]
                            simp only [except_bind_ok]
                            rw [lexT_frame extra h₄ (Or.inl hs₃)]
                            simp only [except_bind_ok]
                            rw [expectTok, if_pos ht4]
                            simp only [except_bind_ok]
                            rw [lexT_frame extra h₅ (Or.inl hs₄)]
                            simp only [except_bind_ok]
                            rw [expectTok, if_pos ht5]
                            simp only [except_bind_ok]
                            rw [lexItem_frame extra h₆ hs₅]
                            simp only [except_bind_ok]
                            rw [h₇]
                            simp only [except_bind_ok]
                            exact ih (dictInsert d key v) s₅ res rest extra g hg h
                      · rw [if_neg ht5] at h
                        simp only [except_bind_err] at h
                        simp at h
                  · rw [if_neg ht4] at h
                    simp only [except_bind_err] at h
                    simp at h
          · rw [if_neg ht3] at h
            simp only [except_bind_err] at h
            simp at h

/-- C10: `BashParser.parse` stops at the first top-level `)` token.
Whenever the parser accepts a line, returning a mapping and leaving some
input unread after the closing parenthesis, appending arbitrary further
text to the line still yields exactly that mapping: the trailing text is
never examined, so it is neither validated nor reflected in the result. -/
theorem C10_trailing_text (u : Str) (d : Dict) (rest extra : Str)
    (h : bashParseCore u = .ok (d, rest)) :
    bashParse (u ++ extra) = .ok d := by
  simp only [bashParseCore] at h
  cases h₁ : lexT u with
  | error e => rw [h₁] at h; simp only [except_bind_err] at h; simp at h
  | ok p₁ =>
    obtain ⟨t₁, s₁⟩ := p₁
    rw [h₁] at h
    simp only [except_bind_ok] at h
    rw [expectIn] at h
    by_cases hm : t₁ ∈ ["declare".toList, "typeset".toList]
    case neg => rw [if_neg hm] at h; simp only [except_bind_err] at h; simp at h
    rw [if_pos hm] at h
    simp only [except_bind_ok] at h
    cases h₂ : lexT s₁ with
    | error e => rw [h₂] at h; simp only [except_bind_err] at h; simp at h
    | ok p₂ =>
      obtain ⟨t₂, s₂⟩ := p₂
      rw [h₂] at h
      simp only [except_bind_ok] at h
      rw [expectTok] at h
      by_cases hd2 : t₂ = ['-']
      case neg => rw [if_neg hd2] at h; simp only [except_bind_err] at h; simp at h
      rw [if_pos hd2] at h
      simp only [except_bind_ok] at h
      cases h₃ : lexT s₂ with
      | error e => rw [h₃] at h; simp only [except_bind_err] at h; simp at h
      | ok p₃ =>
        obtain ⟨t₃, s₃⟩ := p₃
        rw [h₃] at h
        simp only [except_bind_ok] at h
        rw [expectTok] at h
        by_cases hd3 : t₃ = ['A']
        case neg => rw [if_neg hd3] at h; simp only [except_bind_err] at h; simp at h
        rw [if_pos hd3] at h
        simp only [except_bind_ok] at h
        cases h₄ : lexT s₃ with
        | error e => rw [h₄] at h; simp only [except_bind_err] at h; simp at h
        | ok p₄ =>
          obtain ⟨t₄, s₄⟩ := p₄
          rw [h₄] at h
          simp only [except_bind_ok] at h
          cases h₅ : lexT s₄ with
          | error e => rw [h₅] at h; simp only [except_bind_err] at h; simp at h
          | ok p₅ =>
            obtain ⟨t₅, s₅⟩ := p₅
            rw [h₅] at h
            simp only [except_bind_ok] at h
            rw [expectTok] at h
            by_cases hd5 : t₅ = ['=']
            case neg => rw [if_neg hd5] at h; simp only [except_bind_err] at h; simp at h
            rw [if_pos hd5] at h
            simp only [except_bind_ok] at h
            cases h₆ : lexT s₅ with
            | error e => rw [h₆] at h; simp only [except_bind_err] at h; simp at h
            | ok p₆ =>
              obtain ⟨t₆, s₆⟩ := p₆
              rw [h₆] at h
              simp only [except_bind_ok] at h
              rw [expectTok] at h
              by_cases hd6 : t₆ = ['(']
              case neg => rw [if_neg hd6] at h; simp only [except_bind_err] at h; simp at h
              rw [if_pos hd6] at h
              simp only [except_bind_ok] at h
              have hs₆ : s₆ ≠ [] := parseLoop_ok_ne_nil h
              have hs₅ : s₅ ≠ [] := by
                intro he
                rw [he, lexT_nil] at h₆
                simp only [Except.ok.injEq, Prod.mk.injEq] at h₆
                exact hs₆ h₆.2.symm
              have hs₄ : s₄ ≠ [] := by
                intro he
                rw [he, lexT_nil] at h₅
                simp only [Except.ok.injEq, Prod.mk.injEq] at h₅
                exact hs₅ h₅.2.symm
              have hs₃ : s₃ ≠ [] := by
                intro he
                rw [he, lexT_nil] at h₄
                simp only [Except.ok.injEq, Prod.mk.injEq] at h₄
                exact hs₄ h₄.2.symm
              have hs₂ : s₂ ≠ [] := by
                intro he
                rw [he, lexT_nil] at h₃
                simp only [Except.ok.injEq, Prod.mk.injEq] at h₃
                exact hs₃ h₃.2.symm
              have hs₁ : s₁ ≠ [] := by
                intro he
                rw [he, lexT_nil] at h₂
                simp only [Except.ok.injEq, Prod.mk.injEq] at h₂
                exact hs₂ h₂.2.symm
              simp only [bashParse, bashParseCore]
              rw [lexT_frame extra h₁ (Or.inl hs₁)]
              simp only [except_bind_ok]
              rw [expectIn, if_pos hm]
              simp only [except_bind_ok]
              rw [lexT_frame extra h₂ (Or.inl hs₂)]
              simp only [except_bind_ok]
              rw [expectTok, if_pos hd2]
              simp only [except_bind_ok]
              rw [lexT_frame extra h₃ (Or.inl hs₃)]
              simp only [except_bind_ok]
              rw [expectTok, if_pos hd3]
              simp only [except_bind_ok]
              rw [lexT_frame extra h₄ (Or.inl hs₄)]
              simp only [except_bind_ok]
              rw [lexT_frame extra h₅ (Or.inl hs₅)]
              simp only [except_bind_ok]
              rw [expectTok, if_pos hd5]
              simp only [except_bind_ok]
              rw [lexT_frame extra h₆ (Or.inl hs₆)]
              simp only [except_bind_ok]
              rw [expectTok, if_pos hd6]
              simp only [except_bind_ok]
              rw [parseLoop_frame u (u ++ extra) (u.length + 1) [] s₆ d rest extra
                ((u ++ extra).length + 1)
                (by simp only [List.length_append]; omega) h]
              rfl

/-- Witness for C10: a concrete well-formed declaration still parses to
the same mapping when followed by trailing text that is itself
ill-formed (an unbalanced quotation). -/
theorem C10_trailing_text_witness :
    bashParseCore "declare -A x=([k]=v)".toList = .ok ([(['k'], ['v'])], []) ∧
    bashParse ("declare -A x=([k]=v)".toList ++ " ('garbage".toList)
      = .ok [(['k'], ['v'])] :=
  ⟨by decide, C10_trailing_text "declare -A x=([k]=v)".toList [(['k'], ['v'])] []
    " ('garbage".toList (by decide)⟩
